import Mathlib

/-!
Verification of the intellectory inventory and bin-ledger application.

This file gives a shallow embedding, in Lean, of the business logic of the
repository (src/components/Dashboard.tsx and src/components/BinStockPage.tsx)
and proves or refutes the frozen specification claims about it.

Modelling conventions:
  * JavaScript strings are Lean `String`; the library functions
    `toLowerCase`, `trim` and friends are re-implemented over `String.data`
    (lists of characters) so that concrete evaluation is possible inside the
    kernel.  For the ASCII inputs handled by the application these agree with
    the JavaScript functions.
  * JavaScript numbers holding bin balances and quantities are `Int`
    (the backing database columns are integers); unit prices and the other
    stock-item numeric fields are `ℚ`.
  * Database tables are lists of row structures; `upsert` against a unique
    key replaces every matching row (at most one exists under the unique
    constraint of the store) or appends a new one.
  * Identifiers generated by the database are modelled by deterministic
    fresh names; nothing proved here depends on their actual text.
-/

namespace Intellectory

/-! ## String helpers (kernel-reducible stand-ins for the JS string API) -/

/-- Lower-casing of a string, as `String.toLowerCase` in JS, implemented over
the character list so that it reduces during `decide`. -/
def lowerStr (s : String) : String :=
  String.mk (s.data.map Char.toLower)

/-- Whitespace trimming, as `String.trim` in JS. -/
def trimStr (s : String) : String :=
  String.mk (((s.data.dropWhile Char.isWhitespace).reverse.dropWhile Char.isWhitespace).reverse)

/-- Decimal rendering of a natural number (fuel-based so that it reduces in
the kernel). -/
def natToCharsAux : Nat → Nat → List Char
  | 0, _ => []
  | _ + 1, 0 => []
  | fuel + 1, n => natToCharsAux fuel (n / 10) ++ [Char.ofNat (48 + n % 10)]

/-- Decimal rendering of a natural number. -/
def natToStr (n : Nat) : String :=
  if n = 0 then "0" else String.mk (natToCharsAux (n + 1) n)

/-- Decimal rendering of an integer. -/
def intToStr (i : Int) : String :=
  if i < 0 then "-" ++ natToStr i.natAbs else natToStr i.natAbs

/-- Capitalisation of the first character, as `s.charAt(0).toUpperCase() + s.slice(1)`. -/
def capitalize (s : String) : String :=
  match s.data with
  | [] => String.mk []
  | c :: cs => String.mk (c.toUpper :: cs)

/-! ## Bin ledger data model (Dashboard.tsx, BinStockPage.tsx) -/

/-- A bin type row of the `bin_types` table, as used by the components. -/
structure BinTypeDef where
  id : String
  name : String
  category : String
  sub_category : Option String
deriving DecidableEq, Repr

/-- A custom sub-type entry, as assembled by `fetchBinData` from rows having
a `sub_category`: `category` holds the parent sub-category key. -/
structure CustomBin where
  id : String
  name : String
  category : String
deriving DecidableEq, Repr

/-- A row of the `bin_parties` table. -/
structure PartyRow where
  id : String
  name : String
deriving DecidableEq, Repr

/-- A row of the `bin_balances` table (scoped to one team). -/
structure BalanceRow where
  party_id : String
  bin_type_id : String
  balance : Int
deriving DecidableEq, Repr

/-- An entry of the `bin_history_log` table, with the structured detail
payload used for movements. -/
structure HistoryEntry where
  type : String
  change_description : String
  movementType : Option String
  quantity : Option Int
  binName : Option String
  partyName : Option String
deriving DecidableEq, Repr

/-- The slice of remote state touched by bin movements. -/
structure BinState where
  parties : List PartyRow
  balances : List BalanceRow
  history : List HistoryEntry
deriving DecidableEq, Repr

/-- Balance update of `handleBinMovement` (Dashboard.tsx): `sent` adds the
quantity, `received` and `returned` subtract it, and any other type string
falls through every branch and leaves the balance unchanged. -/
def newBalanceOf (t : String) (quantity : Int) (cur : Int) : Int :=
  if t = "sent" then cur + quantity
  else if t = "received" then cur - quantity
  else if t = "returned" then cur - quantity
  else cur

/-- Current balance of a (party, bin type) pair: the single-row select of
`handleBinMovement`, with a missing row read as 0. -/
def lookupBalance (rows : List BalanceRow) (pid bid : String) : Int :=
  (((rows.find? (fun r => r.party_id == pid && r.bin_type_id == bid)).map
    (fun r => r.balance)).getD 0)

/-- Upsert into `bin_balances` keyed on (party, bin type): replaces the
matching row (unique in the store) or inserts a new one. -/
def upsertBalance (rows : List BalanceRow) (pid bid : String) (v : Int) : List BalanceRow :=
  if rows.any (fun r => r.party_id == pid && r.bin_type_id == bid) then
    rows.map (fun r =>
      if r.party_id == pid && r.bin_type_id == bid then ⟨pid, bid, v⟩ else r)
  else rows ++ [⟨pid, bid, v⟩]

/-- Rendered description of a movement, as built in `handleBinMovement`. -/
def movementDescription (t : String) (quantity : Int) (binName partyName : String)
    (binContents transporter : Option String) : String :=
  capitalize t ++ " " ++ intToStr quantity ++ " " ++ binName ++
    (match binContents with
     | some c => " (" ++ c ++ ")"
     | none => "") ++
    " " ++ (if t = "sent" then "to" else "from") ++ " " ++ partyName ++
    (match transporter with
     | some tr => " via " ++ tr
     | none => "") ++ "."

/-- The `handleBinMovement` handler of Dashboard.tsx: find or create the
party (case-insensitive name match), read the current balance, apply the
type-dependent delta, upsert the balance and append a history entry. -/
def applyBinMovement (binTypes : List BinTypeDef) (st : BinState) (t : String)
    (quantity : Int) (binId : String) (partyName : String)
    (transporter binContents : Option String) : BinState :=
  let found := st.parties.find? (fun p => lowerStr p.name == lowerStr partyName)
  let party := found.getD ⟨"party-" ++ natToStr st.parties.length, partyName⟩
  let parties2 := if found.isSome then st.parties else st.parties ++ [party]
  let cur := lookupBalance st.balances party.id binId
  let nb := newBalanceOf t quantity cur
  let balances2 := upsertBalance st.balances party.id binId nb
  let binName := ((binTypes.find? (fun b => b.id == binId)).map
    (fun b => b.name)).getD "Unknown Bin"
  let entry : HistoryEntry :=
    ⟨"movement", movementDescription t quantity binName partyName binContents transporter,
      some t, some quantity, some binName, some partyName⟩
  ⟨parties2, balances2, st.history ++ [entry]⟩

/-! ## The free-text bin command matcher (handleBinAICommand)

The source uses the regular expression
`(send|receive|return) (\d+) (.+?) (to|from) (.+)` with the `i` flag.
The matcher below implements exactly this pattern: an unanchored,
leftmost-first scan, case-insensitive literal words, greedy digits, a lazy
middle group that stops at the first ` (to|from) ` separator followed by a
nonempty rest.  Verb captures are returned lower-cased, which agrees with
the source because the handler immediately applies `toLowerCase()` to the
captured verb. -/

/-- Case-insensitive literal match of `lit` at the head of the input,
returning the rest after the literal. -/
def matchLit : List Char → List Char → Option (List Char)
  | [], rest => some rest
  | _, [] => none
  | l :: ls, c :: cs => if c.toLower = l.toLower then matchLit ls cs else none

/-- Greedy nonempty digit run, as `(\d+)`. -/
def takeDigits : List Char → List Char × List Char
  | [] => ([], [])
  | c :: cs =>
    if c.isDigit then
      let p := takeDigits cs
      (c :: p.1, p.2)
    else ([], c :: cs)

/-- Digits to a natural number, as `parseInt(s, 10)`. -/
def digitsToNat (ds : List Char) : Nat :=
  ds.foldl (fun n c => n * 10 + (c.toNat - 48)) 0

/-- Attempt of the ` (to|from) <party>` tail at the current point, with the
party group `(.+)` matching the nonempty rest; returns the party characters. -/
def trySep (l : List Char) : Option (List Char) :=
  match l with
  | ' ' :: rest =>
    (match matchLit ['t', 'o'] rest with
     | some (' ' :: r) => if r.isEmpty then none else some r
     | _ => none).orElse (fun _ =>
    match matchLit ['f', 'r', 'o', 'm'] rest with
     | some (' ' :: r) => if r.isEmpty then none else some r
     | _ => none)
  | _ => none

/-- Lazy bin-name group `(.+?)`: extend one character at a time and stop at
the first position where the separator and party parse. -/
def lazyBin (acc : List Char) : List Char → Option (String × String)
  | [] => none
  | c :: cs =>
    match trySep cs with
    | some party => some (String.mk (acc ++ [c]), String.mk party)
    | none => lazyBin (acc ++ [c]) cs

/-- One verb alternative, case-insensitively, at the head of the input. -/
def tryVerb (v : String) (l : List Char) : Option (String × List Char) :=
  (matchLit v.data l).map (fun rest => (v, rest))

/-- The whole pattern anchored at the current position. -/
def matchCmdAt (l : List Char) : Option (String × Nat × String × String) :=
  ((tryVerb "send" l).orElse (fun _ => (tryVerb "receive" l).orElse (fun _ =>
    tryVerb "return" l))).bind (fun p =>
      match p.2 with
      | ' ' :: r2 =>
        let d := takeDigits r2
        if d.1.isEmpty then none
        else
          match d.2 with
          | ' ' :: r4 =>
            (lazyBin [] r4).map (fun q => (p.1, digitsToNat d.1, q.1, q.2))
          | _ => none
      | _ => none)

/-- Unanchored leftmost scan of the pattern over the command. -/
def matchBinCmd : List Char → Option (String × Nat × String × String)
  | [] => none
  | c :: cs => (matchCmdAt (c :: cs)).orElse (fun _ => matchBinCmd cs)

/-- The `handleBinAICommand` handler: on a pattern match, resolve the bin
type by trimmed case-insensitive name and delegate to the movement handler;
otherwise surface an explanatory message and perform no mutation.  The
second component is the user-facing message, `none` when a movement was
recorded. -/
def binAICommand (binTypes : List BinTypeDef) (st : BinState) (cmd : String) :
    BinState × Option String :=
  match matchBinCmd cmd.data with
  | some caps =>
    match binTypes.find? (fun b => lowerStr b.name == lowerStr (trimStr caps.2.2.1)) with
    | some bin =>
      (applyBinMovement binTypes st (lowerStr caps.1) (Int.ofNat caps.2.1) bin.id
        (trimStr caps.2.2.2) none none, none)
    | none =>
      (st, some ("Could not find a bin type named \"" ++ trimStr caps.2.2.1 ++ "\"."))
  | none =>
    (st, some "Sorry, I could only understand bin movements like send 10 chep plastic to Ziyard.")

/-! ## The movement form validation (BinStockPage.tsx handleLogMovement) -/

/-- The guard of `handleLogMovement`: `!quantity || !binId || !partyName.trim()`.
An empty field is `none`; a quantity of `0` is falsy in JS and is therefore
also rejected, while any nonzero (including negative) quantity passes. -/
def validMovementForm (quantity : Option Int) (binId partyName : String) : Bool :=
  (match quantity with
   | none => false
   | some q => q != 0) && binId != "" && trimStr partyName != ""

/-- The movement form flow: reject invalid input with a synchronous message
(second component `false`) and no write; otherwise resolve the bin and, on
user confirmation, record the movement. -/
def logMovementFlow (binTypes : List BinTypeDef) (st : BinState) (t : String)
    (quantity : Option Int) (binId partyName : String)
    (transporter binContents : String) : BinState × Bool :=
  if !(validMovementForm quantity binId partyName) then (st, false)
  else
    match binTypes.find? (fun b => b.id == binId) with
    | none => (st, false)
    | some _ =>
      (applyBinMovement binTypes st t (quantity.getD 0) binId (trimStr partyName)
        (if trimStr transporter == "" then none else some (trimStr transporter))
        (if trimStr binContents == "" then none else some (trimStr binContents)), true)

/-! ## Aggregate assembly of fetchBinData (the owed-to-us and we-owe lists) -/

/-- Association list standing in for a JS object keyed by bin-type id. -/
abbrev CountList := List (String × Int)

/-- JS object assignment `m[k] = v`: overwrite an existing key or append. -/
def assocSet (m : CountList) (k : String) (v : Int) : CountList :=
  if m.any (fun p => p.1 == k) then
    m.map (fun p => if p.1 == k then (k, v) else p)
  else m ++ [(k, v)]

/-- JS read `m[k] || 0`. -/
def lookupD (m : CountList) (k : String) : Int :=
  (((m.find? (fun p => p.1 == k)).map (fun p => p.2)).getD 0)

/-- One step of the balance partition loop of `fetchBinData`: positive
balances go to the owed map, negative ones (negated) to the we-owe map, and
a zero balance is stored in neither. -/
def binsStep (acc : CountList × CountList) (r : BalanceRow) : CountList × CountList :=
  if 0 < r.balance then (assocSet acc.1 r.bin_type_id r.balance, acc.2)
  else if r.balance < 0 then (acc.1, assocSet acc.2 r.bin_type_id (-r.balance))
  else acc

/-- The two per-party maps `partyOwedBins` and `partyWeOweBins` built by
`fetchBinData` from the balance rows of one party. -/
def partyBins (rows : List BalanceRow) (pid : String) : CountList × CountList :=
  (rows.filter (fun r => r.party_id == pid)).foldl binsStep ([], [])

/-- A party as displayed in either list. -/
structure BinPartyView where
  id : String
  name : String
  bins : CountList
deriving DecidableEq

/-- The owed-to-us list: parties whose owed map is nonempty. -/
def owedToUsList (parties : List PartyRow) (rows : List BalanceRow) : List BinPartyView :=
  parties.filterMap (fun p =>
    let ob := (partyBins rows p.id).1
    if ob.isEmpty then none else some ⟨p.id, p.name, ob⟩)

/-- The we-owe list: parties whose we-owe map is nonempty. -/
def weOweList (parties : List PartyRow) (rows : List BalanceRow) : List BinPartyView :=
  parties.filterMap (fun p =>
    let wb := (partyBins rows p.id).2
    if wb.isEmpty then none else some ⟨p.id, p.name, wb⟩)

/-- The stored value of a direct edit (`handleDirectEdit`): the entered
user-facing value, negated when the edited party sits in the we-owe list. -/
def directEditStored (weOweParty : Bool) (newValue : Int) : Int :=
  if weOweParty then -newValue else newValue

/-! ## Mixed bin display (BinStockPage.tsx) -/

/-- The recomputation of `calculatedData`: the keys `mixedWood` and
`mixedPlastic` of a counts map are overwritten with the sums of the counts
of the custom sub-types of the respective category (second write reads the
map after the first, as in the source). -/
def updateMixedTotals (customs : List CustomBin) (bins : CountList) : CountList :=
  let woodIds := (customs.filter (fun c => c.category == "mixedWood")).map (fun c => c.id)
  let plasticIds := (customs.filter (fun c => c.category == "mixedPlastic")).map (fun c => c.id)
  let b1 := assocSet bins "mixedWood" (woodIds.map (fun i => lookupD bins i)).sum
  assocSet b1 "mixedPlastic" (plasticIds.map (fun i => lookupD b1 i)).sum

/-- Stable ascending insertion into a run, used to model the stable JS
`Array.prototype.sort`. -/
def insertLe {α : Type} (le : α → α → Bool) (x : α) : List α → List α
  | [] => [x]
  | y :: ys => if le x y then x :: y :: ys else y :: insertLe le x ys

/-- Stable ascending sort (insertion sort), used to model the stable JS
`Array.prototype.sort`. -/
def sortLe {α : Type} (le : α → α → Bool) (l : List α) : List α :=
  l.foldr (insertLe le) []

/-- What a mixed cell renders: either an itemised breakdown of sub-type
rows, or a single number. -/
inductive MixedCellView where
  | breakdown : List (String × Int) → MixedCellView
  | single : Int → MixedCellView
deriving DecidableEq

/-- The `MixedBinCellDisplay` component: sub-types whose `category` equals
the passed category key and whose count is strictly positive are itemised
(sorted by name); with no such sub-type the cell falls back to the value
stored at the category key itself. -/
def mixedBinCellDisplay (category : String) (bins : CountList)
    (customs : List CustomBin) : MixedCellView :=
  let subBins := sortLe (fun a b => a.name ≤ b.name)
    (customs.filter (fun b => b.category == category && 0 < lookupD bins b.id))
  if subBins.isEmpty then .single (lookupD bins category)
  else .breakdown (subBins.map (fun b => (b.name, lookupD bins b.id)))

/-- The total shown by a mixed cell: the sum of the itemised counts, or the
single fallback number. -/
def displayedMixedTotal : MixedCellView → Int
  | .breakdown l => (l.map (fun p => p.2)).sum
  | .single n => n

/-- The cell actually rendered for a mixed bin in a status or party row:
`renderStatusRow` and `renderPartyRow` pass the recomputed counts map of
`calculatedData` and use the bin id as the category key. -/
def mixedCellFor (bin : BinTypeDef) (customs : List CustomBin) (bins : CountList) :
    MixedCellView :=
  mixedBinCellDisplay bin.id (updateMixedTotals customs bins) customs

/-- The displayed total claimed by the specification, stated from its words:
the sum of the counts of the custom sub-types associated with the mixed
category of the bin (association via `sub_category`) when at least one of
them has a nonzero count, and the raw stored value of the bin otherwise. -/
def claimedMixedTotal (bin : BinTypeDef) (customs : List CustomBin)
    (bins : CountList) : Int :=
  let assoc := customs.filter (fun c => bin.sub_category == some c.category)
  if assoc.any (fun c => lookupD bins c.id != 0) then
    (assoc.map (fun c => lookupD bins c.id)).sum
  else lookupD bins bin.id

/-! ## Stock items (Dashboard.tsx) -/

/-- A row of the `stock_items` table.  The numeric columns are JS numbers;
they are modelled as rationals. -/
structure StockItem where
  id : String
  name : String
  category : String
  opening_stock : ℚ
  added_today : ℚ
  packed : ℚ
  lost : ℚ
  alert_level : ℚ
  price : ℚ
  color : String

/-- Derived quantity `used = packed + lost` of `enhancedStockData`. -/
def usedOf (it : StockItem) : ℚ := it.packed + it.lost

/-- Derived quantity `remaining = opening_stock + added_today - used` of
`enhancedStockData`. -/
def remainingOf (it : StockItem) : ℚ := it.opening_stock + it.added_today - usedOf it

/-- The per-item update of `handleNewDay`: the new opening stock is the
remaining value computed inline in the source, and the three daily counters
are zeroed; every other field is untouched (the upsert payload contains only
these columns, and the local state update spreads the old item). -/
def newDayItem (it : StockItem) : StockItem :=
  { it with
      opening_stock := it.opening_stock + it.added_today - it.packed - it.lost
      added_today := 0
      packed := 0
      lost := 0 }

/-- The batch upsert of `handleNewDay` over the whole stock list. -/
def handleNewDay (items : List StockItem) : List StockItem :=
  items.map newDayItem

/-- The add-item form data (`AddItemData`); empty numeric fields are `none`. -/
structure AddItemData where
  name : String
  quantity : Option ℚ
  alertLevel : Option ℚ
  price : Option ℚ
  transactionType : String
  supplierName : Option String
  color : String

/-- Outcome of one `handleAddItem` call on the stock list: either the
price-mismatch confirmation modal is opened (no write), or the new stock
list after the write. -/
inductive AddOutcome where
  | confirmPriceChange : StockItem → AddItemData → AddOutcome
  | write : List StockItem → AddOutcome

/-- The `handleAddItem` handler restricted to the stock-items table (the
supplier and credit-transaction tail does not bear on the claims proved
here).  A name match is case-insensitive; for an existing item a unit price
differing from the stored one by more than 0.001 opens the confirmation
modal unless `updateExistingPrice` was passed; otherwise the added quantity
is accumulated into `added_today`, and the price is overwritten only when
`updateExistingPrice` is set. -/
def handleAddItem (items : List StockItem) (d : AddItemData)
    (updateExistingPrice : Bool) : AddOutcome :=
  let numQuantity := d.quantity.getD 0
  let numPrice := d.price.getD 0
  let numAlertLevel := d.alertLevel.getD 0
  match items.find? (fun i => lowerStr i.name == lowerStr d.name) with
  | some existingItem =>
    if |existingItem.price - numPrice| > 0.001 ∧ ¬ updateExistingPrice then
      .confirmPriceChange existingItem d
    else
      .write (items.map (fun i =>
        if i.id == existingItem.id then
          { i with
              added_today := existingItem.added_today + numQuantity
              price := if updateExistingPrice then numPrice else i.price }
        else i))
  | none =>
    .write (items ++ [⟨"item-" ++ natToStr items.length, d.name, "", 0, numQuantity,
      0, 0, numAlertLevel, numPrice, d.color⟩])

/-- The `No, Keep Old Price` button of the price-mismatch modal: it calls
`handleAddItem(priceConfirmation.newItemData, false)` again. -/
def declinePriceChange (items : List StockItem) (d : AddItemData) : AddOutcome :=
  handleAddItem items d false

/-- The editable numeric columns (`EditableStockItemKey`). -/
inductive FieldKey where
  | opening_stock
  | added_today
  | packed
  | lost
  | alert_level
  | price
deriving DecidableEq, Repr

/-- Field read `item[field]`. -/
def getF (it : StockItem) : FieldKey → ℚ
  | .opening_stock => it.opening_stock
  | .added_today => it.added_today
  | .packed => it.packed
  | .lost => it.lost
  | .alert_level => it.alert_level
  | .price => it.price

/-- Field write `item[field] = value`. -/
def setF (it : StockItem) (f : FieldKey) (v : ℚ) : StockItem :=
  match f with
  | .opening_stock => { it with opening_stock := v }
  | .added_today => { it with added_today := v }
  | .packed => { it with packed := v }
  | .lost => { it with lost := v }
  | .alert_level => { it with alert_level := v }
  | .price => { it with price := v }

/-- The `handleStockUpdate` handler.  `view` is the stock list captured by
the closure of the handler (the render snapshot in which the item is looked
up and the old value compared), `db` the current store contents, and the
counter the length of the activity log.  A missing item or an unchanged
value performs no write and appends no log entry. -/
def handleStockUpdate (view db : List StockItem) (logN : Nat) (itemId : String)
    (f : FieldKey) (value : ℚ) : List StockItem × Nat :=
  match view.find? (fun i => i.id == itemId) with
  | none => (db, logN)
  | some item =>
    if getF item f = value then (db, logN)
    else (db.map (fun i => if i.id == itemId then setF i f value else i), logN + 1)

/-- The UPDATE branch of `handleAICommand`: find the target item by
case-insensitive name; for each supplied parameter add its value to the
current field value of the found item (the render snapshot, fixed for the
whole loop) and delegate to `handleStockUpdate`.  An unmatched name performs
no mutation. -/
def aiStockUpdate (items : List StockItem) (logN : Nat) (updateName : String)
    (params : List (FieldKey × ℚ)) : List StockItem × Nat :=
  match items.find? (fun i => lowerStr i.name == lowerStr updateName) with
  | none => (items, logN)
  | some itemToUpdate =>
    params.foldl (fun st p =>
      handleStockUpdate items st.1 st.2 itemToUpdate.id p.1 (getF itemToUpdate p.1 + p.2))
      (items, logN)

/-- Summary form of the loop effect used in the statement about
`aiStockUpdate`: every supplied field of the base item receives the base
value plus its delta. -/
def applyParams (base : StockItem) (params : List (FieldKey × ℚ)) : StockItem :=
  params.foldl (fun it p => setF it p.1 (getF base p.1 + p.2)) base

/-! ## Levenshtein distance and the fuzzy supplier match (Dashboard.tsx) -/

/-- The dynamic-programming matrix of `levenshteinDistance` in the source,
written as a fuel-based recurrence so that it reduces in the kernel.
`levMatrixAux a b fuel j i` is `matrix[j][i]` of the source: the borders are
`matrix[0][i] = i` and `matrix[j][0] = j`, and the inner cells take the
minimum of deletion (`matrix[j][i-1] + 1`), insertion (`matrix[j-1][i] + 1`)
and substitution (`matrix[j-1][i-1] + indicator`), the indicator comparing
`a[i-1]` with `b[j-1]`.  The fuel never runs out in actual use. -/
def levMatrixAux (a b : List Char) : Nat → Nat → Nat → Nat
  | 0, _, _ => 0
  | _ + 1, 0, i => i
  | _ + 1, j + 1, 0 => j + 1
  | fuel + 1, j + 1, i + 1 =>
    min (levMatrixAux a b fuel (j + 1) i + 1)
      (min (levMatrixAux a b fuel j (i + 1) + 1)
        (levMatrixAux a b fuel j i + (if a.getD i ' ' = b.getD j ' ' then 0 else 1)))

/-- Entry `matrix[j][i]` of the source matrix, with sufficient fuel. -/
def levMatrix (a b : List Char) (j i : Nat) : Nat :=
  levMatrixAux a b (j + i + 1) j i

/-- The `levenshteinDistance` helper of Dashboard.tsx: both strings are
lower-cased, and the result is `matrix[bLower.length][aLower.length]`. -/
def levenshteinDistance (a b : String) : Nat :=
  let aLower := a.data.map Char.toLower
  let bLower := b.data.map Char.toLower
  levMatrix aLower bLower bLower.length aLower.length

/-- The standard recursive Levenshtein edit distance with unit costs for
insertion, deletion and substitution, stated from the words of the
specification for comparison with the implementation. -/
def levSpec : List Char → List Char → Nat
  | [], ys => ys.length
  | xs, [] => xs.length
  | x :: xs, y :: ys =>
    min (levSpec xs (y :: ys) + 1)
      (min (levSpec (x :: xs) ys + 1) (levSpec xs ys + (if x = y then 0 else 1)))

/-- A supplier row. -/
structure Supplier where
  id : String
  name : String
deriving DecidableEq, Repr

/-- Result of the fuzzy supplier lookup: a direct match or a suggestion. -/
inductive SupplierMatch where
  | found : Supplier → SupplierMatch
  | suggestion : String → SupplierMatch
deriving DecidableEq, Repr

/-- The `findSupplier` helper of Dashboard.tsx: an exact case-insensitive
match on the trimmed name is returned directly; otherwise all suppliers are
ranked by edit distance to the entered name (stable ascending sort, as the
JS comparator `a.dist - b.dist`) and the closest one is offered as a
suggestion when its distance is at most 3. -/
def findSupplier (name : String) (suppliers : List Supplier) : Option SupplierMatch :=
  let lowerName := lowerStr (trimStr name)
  match suppliers.find? (fun s => lowerStr s.name == lowerName) with
  | some s => some (.found s)
  | none =>
    let suggestions := sortLe (fun p q => p.2 ≤ q.2)
      (suppliers.map (fun s => (s, levenshteinDistance lowerName s.name)))
    match suggestions with
    | [] => none
    | s0 :: _ => if s0.2 ≤ 3 then some (.suggestion s0.1.name) else none

/-! ## Claim C1: the balance is the sum of signed deltas, order-independently -/

/-- The evolution of one (party, bin type) balance cell under a sequence of
recorded movements, each applying the delta of `handleBinMovement`. -/
def foldMovements (b0 : Int) (ms : List (String × Int)) : Int :=
  ms.foldl (fun b m => newBalanceOf m.1 m.2 b) b0

/-- The signed delta named by the specification: `+q` for a sent movement,
`-q` for a received or returned one. -/
def signedDelta (m : String × Int) : Int :=
  if m.1 = "sent" then m.2 else -m.2

theorem newBalanceOf_eq_add (t : String) (q b : Int) :
    newBalanceOf t q b = b + newBalanceOf t q 0 := by
  unfold newBalanceOf
  split
  · omega
  · split
    · omega
    · split
      · omega
      · omega

theorem foldMovements_eq_add_sum (b0 : Int) (ms : List (String × Int)) :
    foldMovements b0 ms = b0 + (ms.map (fun m => newBalanceOf m.1 m.2 0)).sum := by
  induction ms generalizing b0 with
  | nil => simp [foldMovements]
  | cons m ms ih =>
    have h1 : foldMovements b0 (m :: ms) = foldMovements (newBalanceOf m.1 m.2 b0) ms := rfl
    rw [h1, ih, newBalanceOf_eq_add]
    simp
    omega

/-- C1: starting from balance b0, recording any sequence of movements whose
types are among sent, received and returned leaves the stored balance equal
to b0 plus the sum of the signed deltas (+q for sent, -q for received and
returned), and any permutation of the sequence yields the same balance. -/
theorem C1_balance_is_order_independent_signed_sum (b0 : Int)
    (ms msPerm : List (String × Int))
    (htypes : ∀ m ∈ ms, m.1 = "sent" ∨ m.1 = "received" ∨ m.1 = "returned")
    (hperm : ms.Perm msPerm) :
    foldMovements b0 ms = b0 + (ms.map signedDelta).sum
    ∧ foldMovements b0 msPerm = foldMovements b0 ms := by
  have hmap : ∀ l : List (String × Int),
      (∀ m ∈ l, m.1 = "sent" ∨ m.1 = "received" ∨ m.1 = "returned") →
      l.map (fun m => newBalanceOf m.1 m.2 0) = l.map signedDelta := by
    intro l hl
    apply List.map_congr_left
    intro m hm
    rcases hl m hm with h | h | h <;>
      simp [newBalanceOf, signedDelta, h]
  constructor
  · rw [foldMovements_eq_add_sum, hmap ms htypes]
  · rw [foldMovements_eq_add_sum b0 msPerm, foldMovements_eq_add_sum b0 ms,
      hmap ms htypes, hmap msPerm (fun m hm => htypes m (hperm.mem_iff.mpr hm))]
    have := ((hperm.map signedDelta).sum_eq)
    omega

/-- Witness for C1 at the example scenario of the specification: sending 5
then receiving back 2 returned bins gives balance 3, in either order. -/
theorem C1_witness :
    foldMovements 0 [("sent", 5), ("returned", 2)]
      = 0 + (([("sent", 5), ("returned", 2)] : List (String × Int)).map signedDelta).sum
    ∧ foldMovements 0 [("returned", 2), ("sent", 5)]
      = foldMovements 0 [("sent", 5), ("returned", 2)] :=
  C1_balance_is_order_independent_signed_sum 0
    [("sent", 5), ("returned", 2)] [("returned", 2), ("sent", 5)]
    (by decide) (by decide)

/-! ## Claim C4: the regex fallback interpreter (code bug) -/

/-- Demonstration fixtures shared by the concrete evaluations below. -/
def demoBinTypes : List BinTypeDef := [⟨"b1", "Chep Plastic", "standard", none⟩]

/-- Demonstration state: one party, no balances, empty history. -/
def demoState : BinState := ⟨[⟨"p1", "Ziyard"⟩], [], []⟩

/-- C4: evaluating the interpreter on the matching command
`send 5 chep plastic to ziyard` records a movement whose stored balance
delta is zero: the captured verb `send` is compared by `handleBinMovement`
against `sent`, `received` and `returned`, matches none of them, and falls
through with the balance unchanged (and the description even renders the
movement with `from`).  The second conjunct shows the delta the handler
applies to the type value `sent` it actually tests for, which is what the
claim (and the UI path) expects.  Unmatched text and unknown bin names do
produce a message without mutation, as the claim states. -/
theorem C4_send_command_applies_zero_delta :
    binAICommand demoBinTypes demoState "send 5 chep plastic to ziyard"
      = (⟨[⟨"p1", "Ziyard"⟩], [⟨"p1", "b1", 0⟩],
          [⟨"movement", "Send 5 Chep Plastic from ziyard.", some "send", some 5,
            some "Chep Plastic", some "ziyard"⟩]⟩, none)
    ∧ newBalanceOf "sent" 5 0 = 5
    ∧ binAICommand demoBinTypes demoState "hello"
      = (demoState,
          some "Sorry, I could only understand bin movements like send 10 chep plastic to Ziyard.")
    ∧ binAICommand demoBinTypes demoState "send 5 chep wood to ziyard"
      = (demoState, some "Could not find a bin type named \"chep wood\".") := by
  decide

/-! ## Claim C6: the new-day rollover -/

/-- C6: after the rollover every item carries its previous remaining value
as the new opening stock, the three daily counters are zeroed, and all other
fields are unchanged. -/
theorem C6_new_day_rollover (items : List StockItem) (it : StockItem) :
    handleNewDay items = items.map newDayItem
    ∧ (newDayItem it).opening_stock = remainingOf it
    ∧ (newDayItem it).added_today = 0
    ∧ (newDayItem it).packed = 0
    ∧ (newDayItem it).lost = 0
    ∧ (newDayItem it).id = it.id
    ∧ (newDayItem it).name = it.name
    ∧ (newDayItem it).category = it.category
    ∧ (newDayItem it).price = it.price
    ∧ (newDayItem it).alert_level = it.alert_level
    ∧ (newDayItem it).color = it.color := by
  refine ⟨rfl, ?_, rfl, rfl, rfl, rfl, rfl, rfl, rfl, rfl, rfl⟩
  unfold newDayItem remainingOf usedOf
  ring

/-! ## Claim C7: the price-mismatch confirmation (code bug in the decline path) -/

/-- The existing Widget of the example scenario, stored at price 2.00. -/
def c7Existing : StockItem := ⟨"i1", "Widget", "", 0, 0, 0, 0, 100, 2, "#10B981"⟩

/-- The interpreted ADD of 5 more Widget at unit price 3.00. -/
def c7Add : AddItemData := ⟨"Widget", some 5, some 100, some 3, "cash", none, "#3B82F6"⟩

/-- C7: with an existing Widget at price 2.00, adding 5 at price 3.00 opens
the confirmation modal without any mutation, and accepting the price update
writes price 3.00 with added_today increased by 5, as the claim states; but
declining re-invokes the very same guarded call with the update flag still
false, which opens the confirmation modal again instead of performing the
add with the old price: the declined add never happens. -/
theorem C7_decline_reopens_confirmation :
    handleAddItem [c7Existing] c7Add false = .confirmPriceChange c7Existing c7Add
    ∧ declinePriceChange [c7Existing] c7Add = .confirmPriceChange c7Existing c7Add
    ∧ handleAddItem [c7Existing] c7Add true
      = .write [⟨"i1", "Widget", "", 0, 5, 0, 0, 100, 3, "#10B981"⟩] := by
  refine ⟨?_, ?_, ?_⟩ <;>
    norm_num [handleAddItem, declinePriceChange, c7Existing, c7Add, List.find?]

/-! ## Claim C8: quantity validation of the movement form (corrected) -/

/-- C8 counterexample: a movement request with quantity -3 passes the form
validation (the guard only rejects falsy values, that is the empty field
and 0), the balance row is written and a history entry is appended, so a
negative quantity is not rejected before the write. -/
theorem C8_counterexample_negative_quantity_recorded :
    validMovementForm (some (-3)) "b1" "Ziyard" = true
    ∧ (logMovementFlow demoBinTypes demoState "sent" (some (-3)) "b1" "Ziyard" "" "").1.balances
      = [⟨"p1", "b1", -3⟩]
    ∧ ((logMovementFlow demoBinTypes demoState "sent" (some (-3)) "b1" "Ziyard" "" "").1.history).length
      = 1 := by
  decide

/-- C8 amended: a movement request with an empty or zero quantity is
rejected by the form before any write, with the state unchanged and the
user informed synchronously; quantities that are merely negative are not
caught by this guard. -/
theorem C8_zero_or_missing_quantity_rejected (binTypes : List BinTypeDef)
    (st : BinState) (t : String) (binId partyName tr bc : String) :
    logMovementFlow binTypes st t none binId partyName tr bc = (st, false)
    ∧ logMovementFlow binTypes st t (some 0) binId partyName tr bc = (st, false) := by
  constructor <;> simp [logMovementFlow, validMovementForm]

/-! ## Claims C2 and C3: the owed-to-us and we-owe partition -/

theorem hasKey_assocSet (m : CountList) (k k' : String) (v : Int) :
    (∃ p ∈ assocSet m k v, p.1 = k') ↔ (∃ p ∈ m, p.1 = k') ∨ k' = k := by
  unfold assocSet
  by_cases h : m.any (fun p => p.1 == k)
  · simp only [h, if_true]
    constructor
    · rintro ⟨p, hp, hp1⟩
      rw [List.mem_map] at hp
      obtain ⟨q, hq, hgq⟩ := hp
      by_cases hqk : q.1 == k
      · right
        rw [if_pos hqk] at hgq
        rw [← hgq] at hp1
        exact hp1.symm
      · left
        rw [if_neg hqk] at hgq
        exact ⟨q, hq, by rw [hgq]; exact hp1⟩
    · rintro (⟨q, hq, hq1⟩ | heq)
      · by_cases hqk : q.1 == k
        · refine ⟨(k, v), List.mem_map.mpr ⟨q, hq, by rw [if_pos hqk]⟩, ?_⟩
          have := beq_iff_eq.mp hqk
          rw [← this, hq1]
        · exact ⟨q, List.mem_map.mpr ⟨q, hq, by rw [if_neg hqk]⟩, hq1⟩
      · rw [List.any_eq_true] at h
        obtain ⟨q, hq, hq1⟩ := h
        exact ⟨(k, v), List.mem_map.mpr ⟨q, hq, by rw [if_pos hq1]⟩, heq.symm⟩
  · simp only [h, if_false]
    constructor
    · rintro ⟨p, hp, hp1⟩
      rcases List.mem_append.mp hp with hp | hp
      · exact Or.inl ⟨p, hp, hp1⟩
      · right
        rw [List.mem_singleton] at hp
        rw [hp] at hp1
        exact hp1.symm
    · rintro (⟨q, hq, hq1⟩ | heq)
      · exact ⟨q, List.mem_append.mpr (Or.inl hq), hq1⟩
      · exact ⟨(k, v), List.mem_append.mpr (Or.inr (List.mem_singleton.mpr rfl)), heq.symm⟩

theorem lookupD_cons_self {k : String} (p : String × Int) (m : CountList) (h : p.1 = k) :
    lookupD (p :: m) k = p.2 := by
  unfold lookupD
  rw [List.find?_cons_of_pos _ (by simpa using h)]
  rfl

theorem lookupD_cons_ne {k : String} (p : String × Int) (m : CountList) (h : ¬ p.1 = k) :
    lookupD (p :: m) k = lookupD m k := by
  unfold lookupD
  rw [List.find?_cons_of_neg _ (by simpa using h)]

theorem lookupD_map_overwrite (m : CountList) (k k' : String) (v : Int) (h : k' ≠ k) :
    lookupD (m.map (fun q => if q.1 == k then (k, v) else q)) k' = lookupD m k' := by
  induction m with
  | nil => rfl
  | cons p ps ih =>
    rw [List.map_cons]
    by_cases hpk : p.1 == k
    · rw [if_pos hpk, lookupD_cons_ne _ _ (by exact fun hc => h hc.symm),
        lookupD_cons_ne _ _ (by rw [beq_iff_eq.mp hpk]; exact fun hc => h hc.symm), ih]
    · rw [if_neg hpk]
      by_cases hpk' : p.1 = k'
      · rw [lookupD_cons_self _ _ hpk', lookupD_cons_self _ _ hpk']
      · rw [lookupD_cons_ne _ _ hpk', lookupD_cons_ne _ _ hpk', ih]

theorem lookupD_append_single_ne (m : CountList) (k k' : String) (v : Int) (h : k' ≠ k) :
    lookupD (m ++ [(k, v)]) k' = lookupD m k' := by
  induction m with
  | nil =>
    rw [List.nil_append, lookupD_cons_ne _ _ (fun hc => h hc.symm)]
  | cons p ps ih =>
    rw [List.cons_append]
    by_cases hpk' : p.1 = k'
    · rw [lookupD_cons_self _ _ hpk', lookupD_cons_self _ _ hpk']
    · rw [lookupD_cons_ne _ _ hpk', lookupD_cons_ne _ _ hpk', ih]

theorem lookupD_map_overwrite_self (m : CountList) (k : String) (v : Int)
    (hany : m.any (fun q => q.1 == k) = true) :
    lookupD (m.map (fun q => if q.1 == k then (k, v) else q)) k = v := by
  induction m with
  | nil => simp at hany
  | cons p ps ih =>
    rw [List.map_cons]
    by_cases hpk : p.1 == k
    · rw [if_pos hpk, lookupD_cons_self _ _ rfl]
    · rw [if_neg hpk, lookupD_cons_ne _ _ (by simpa using hpk)]
      simp only [Bool.not_eq_true] at hpk
      rw [List.any_cons, hpk, Bool.false_or] at hany
      exact ih hany

theorem lookupD_append_single_self (m : CountList) (k : String) (v : Int)
    (hnone : m.any (fun q => q.1 == k) = false) :
    lookupD (m ++ [(k, v)]) k = v := by
  induction m with
  | nil => simp [lookupD, List.find?]
  | cons p ps ih =>
    rw [List.any_cons, Bool.or_eq_false_iff] at hnone
    rw [List.cons_append, lookupD_cons_ne _ _ (by simpa using hnone.1)]
    exact ih hnone.2

theorem lookupD_assocSet_self (m : CountList) (k : String) (v : Int) :
    lookupD (assocSet m k v) k = v := by
  unfold assocSet
  by_cases hany : m.any (fun q => q.1 == k)
  · rw [if_pos hany]
    exact lookupD_map_overwrite_self m k v hany
  · rw [if_neg hany]
    exact lookupD_append_single_self m k v (by simpa only [Bool.not_eq_true] using hany)

theorem lookupD_assocSet_ne (m : CountList) (k k' : String) (v : Int) (h : k' ≠ k) :
    lookupD (assocSet m k v) k' = lookupD m k' := by
  unfold assocSet
  by_cases hany : m.any (fun q => q.1 == k)
  · rw [if_pos hany]
    exact lookupD_map_overwrite m k k' v h
  · rw [if_neg hany]
    exact lookupD_append_single_ne m k k' v h

theorem hasKey_fold_owed (b : String) :
    ∀ (l : List BalanceRow) (acc : CountList × CountList),
    ((∃ p ∈ (l.foldl binsStep acc).1, p.1 = b) ↔
      (∃ p ∈ acc.1, p.1 = b) ∨ ∃ r ∈ l, r.bin_type_id = b ∧ 0 < r.balance) := by
  intro l
  induction l with
  | nil => simp
  | cons r l ih =>
    intro acc
    rw [List.foldl_cons, ih]
    unfold binsStep
    by_cases hpos : 0 < r.balance
    · rw [if_pos hpos]
      rw [hasKey_assocSet]
      constructor
      · rintro ((h | h) | h)
        · exact Or.inl h
        · exact Or.inr ⟨r, List.mem_cons_self r l, h.symm, hpos⟩
        · obtain ⟨r', hr', hb, hbal⟩ := h
          exact Or.inr ⟨r', List.mem_cons_of_mem r hr', hb, hbal⟩
      · rintro (h | ⟨r', hr', hb, hbal⟩)
        · exact Or.inl (Or.inl h)
        · rcases List.mem_cons.mp hr' with heq | hmem
          · exact Or.inl (Or.inr (by rw [heq] at hb; exact hb.symm))
          · exact Or.inr ⟨r', hmem, hb, hbal⟩
    · rw [if_neg hpos]
      have hsame : ((if r.balance < 0 then (acc.1, assocSet acc.2 r.bin_type_id (-r.balance))
          else acc) : CountList × CountList).1 = acc.1 := by
        split <;> rfl
      rw [hsame]
      constructor
      · rintro (h | ⟨r', hr', hb, hbal⟩)
        · exact Or.inl h
        · exact Or.inr ⟨r', List.mem_cons_of_mem r hr', hb, hbal⟩
      · rintro (h | ⟨r', hr', hb, hbal⟩)
        · exact Or.inl h
        · rcases List.mem_cons.mp hr' with heq | hmem
          · rw [heq] at hbal
            exact absurd hbal hpos
          · exact Or.inr ⟨r', hmem, hb, hbal⟩

theorem hasKey_fold_we (b : String) :
    ∀ (l : List BalanceRow) (acc : CountList × CountList),
    ((∃ p ∈ (l.foldl binsStep acc).2, p.1 = b) ↔
      (∃ p ∈ acc.2, p.1 = b) ∨ ∃ r ∈ l, r.bin_type_id = b ∧ r.balance < 0) := by
  intro l
  induction l with
  | nil => simp
  | cons r l ih =>
    intro acc
    rw [List.foldl_cons, ih]
    unfold binsStep
    by_cases hpos : 0 < r.balance
    · rw [if_pos hpos]
      constructor
      · rintro (h | ⟨r', hr', hb, hbal⟩)
        · exact Or.inl h
        · exact Or.inr ⟨r', List.mem_cons_of_mem r hr', hb, hbal⟩
      · rintro (h | ⟨r', hr', hb, hbal⟩)
        · exact Or.inl h
        · rcases List.mem_cons.mp hr' with heq | hmem
          · rw [heq] at hbal
            omega
          · exact Or.inr ⟨r', hmem, hb, hbal⟩
    · rw [if_neg hpos]
      by_cases hneg : r.balance < 0
      · rw [if_pos hneg]
        rw [hasKey_assocSet]
        constructor
        · rintro ((h | h) | h)
          · exact Or.inl h
          · exact Or.inr ⟨r, List.mem_cons_self r l, h.symm, hneg⟩
          · obtain ⟨r', hr', hb, hbal⟩ := h
            exact Or.inr ⟨r', List.mem_cons_of_mem r hr', hb, hbal⟩
        · rintro (h | ⟨r', hr', hb, hbal⟩)
          · exact Or.inl (Or.inl h)
          · rcases List.mem_cons.mp hr' with heq | hmem
            · exact Or.inl (Or.inr (by rw [heq] at hb; exact hb.symm))
            · exact Or.inr ⟨r', hmem, hb, hbal⟩
      · rw [if_neg hneg]
        constructor
        · rintro (h | ⟨r', hr', hb, hbal⟩)
          · exact Or.inl h
          · exact Or.inr ⟨r', List.mem_cons_of_mem r hr', hb, hbal⟩
        · rintro (h | ⟨r', hr', hb, hbal⟩)
          · exact Or.inl h
          · rcases List.mem_cons.mp hr' with heq | hmem
            · rw [heq] at hbal
              exact absurd hbal hneg
            · exact Or.inr ⟨r', hmem, hb, hbal⟩

theorem mem_filter_party (rows : List BalanceRow) (pid : String) (r : BalanceRow) :
    r ∈ rows.filter (fun r => r.party_id == pid) ↔ r ∈ rows ∧ r.party_id = pid := by
  rw [List.mem_filter]
  simp

theorem partyBins_owed_key (rows : List BalanceRow) (pid b : String) :
    (∃ p ∈ (partyBins rows pid).1, p.1 = b) ↔
      ∃ r ∈ rows, r.party_id = pid ∧ r.bin_type_id = b ∧ 0 < r.balance := by
  unfold partyBins
  rw [hasKey_fold_owed]
  simp only [List.not_mem_nil, false_and, exists_false, false_or]
  constructor
  · rintro ⟨r, hr, hb, hbal⟩
    rw [mem_filter_party] at hr
    exact ⟨r, hr.1, hr.2, hb, hbal⟩
  · rintro ⟨r, hr, hp, hb, hbal⟩
    exact ⟨r, (mem_filter_party rows pid r).mpr ⟨hr, hp⟩, hb, hbal⟩

theorem partyBins_we_key (rows : List BalanceRow) (pid b : String) :
    (∃ p ∈ (partyBins rows pid).2, p.1 = b) ↔
      ∃ r ∈ rows, r.party_id = pid ∧ r.bin_type_id = b ∧ r.balance < 0 := by
  unfold partyBins
  rw [hasKey_fold_we]
  simp only [List.not_mem_nil, false_and, exists_false, false_or]
  constructor
  · rintro ⟨r, hr, hb, hbal⟩
    rw [mem_filter_party] at hr
    exact ⟨r, hr.1, hr.2, hb, hbal⟩
  · rintro ⟨r, hr, hp, hb, hbal⟩
    exact ⟨r, (mem_filter_party rows pid r).mpr ⟨hr, hp⟩, hb, hbal⟩

theorem countList_nonempty_iff_key (m : CountList) :
    (¬ m.isEmpty = true) ↔ ∃ b, ∃ p ∈ m, p.1 = b := by
  cases m with
  | nil => simp
  | cons p ps =>
    simp only [List.isEmpty_cons, Bool.false_eq_true, not_false_iff, true_iff]
    exact ⟨p.1, p, List.mem_cons_self p ps, rfl⟩

/-- C2: a party appears in the owed-to-us list iff some balance row of that
party is strictly positive, in the we-owe list iff some row is strictly
negative, and a (party, bin type) pair whose rows are all zero is keyed in
neither displayed map, so a zero balance is never displayed and an all-zero
party appears in neither list. -/
theorem C2_partition_owed_we (parties : List PartyRow) (rows : List BalanceRow)
    (pid b : String) :
    ((∃ e ∈ owedToUsList parties rows, e.id = pid) ↔
      (∃ p ∈ parties, p.id = pid) ∧ ∃ r ∈ rows, r.party_id = pid ∧ 0 < r.balance)
    ∧ ((∃ e ∈ weOweList parties rows, e.id = pid) ↔
      (∃ p ∈ parties, p.id = pid) ∧ ∃ r ∈ rows, r.party_id = pid ∧ r.balance < 0)
    ∧ ((∃ p ∈ (partyBins rows pid).1, p.1 = b) ↔
      ∃ r ∈ rows, r.party_id = pid ∧ r.bin_type_id = b ∧ 0 < r.balance)
    ∧ ((∃ p ∈ (partyBins rows pid).2, p.1 = b) ↔
      ∃ r ∈ rows, r.party_id = pid ∧ r.bin_type_id = b ∧ r.balance < 0) := by
  refine ⟨?_, ?_, partyBins_owed_key rows pid b, partyBins_we_key rows pid b⟩
  · unfold owedToUsList
    constructor
    · rintro ⟨e, he, heid⟩
      rw [List.mem_filterMap] at he
      obtain ⟨p, hp, hf⟩ := he
      by_cases hemp : ((partyBins rows p.id).1).isEmpty
      · simp only [hemp, if_true] at hf
        cases hf
      · simp only [hemp, if_false] at hf
        have hpid : p.id = pid := by
          have : e.id = p.id := by rw [← Option.some_inj.mp hf]
          rw [← heid, this]
        obtain ⟨bb, hkey⟩ := (countList_nonempty_iff_key _).mp hemp
        have := (partyBins_owed_key rows p.id bb).mp hkey
        obtain ⟨r, hr, hrp, _, hbal⟩ := this
        exact ⟨⟨p, hp, hpid⟩, r, hr, by rw [← hpid]; exact hrp, hbal⟩
    · rintro ⟨⟨p, hp, hpid⟩, r, hr, hrp, hbal⟩
      have hkey : ∃ q ∈ (partyBins rows p.id).1, q.1 = r.bin_type_id := by
        rw [partyBins_owed_key]
        exact ⟨r, hr, by rw [hpid]; exact hrp, rfl, hbal⟩
      have hne : ¬ ((partyBins rows p.id).1).isEmpty = true := by
        rw [countList_nonempty_iff_key]
        exact ⟨r.bin_type_id, hkey⟩
      refine ⟨⟨p.id, p.name, (partyBins rows p.id).1⟩, ?_, hpid⟩
      rw [List.mem_filterMap]
      exact ⟨p, hp, by simp [hne]⟩
  · unfold weOweList
    constructor
    · rintro ⟨e, he, heid⟩
      rw [List.mem_filterMap] at he
      obtain ⟨p, hp, hf⟩ := he
      by_cases hemp : ((partyBins rows p.id).2).isEmpty
      · simp only [hemp, if_true] at hf
        cases hf
      · simp only [hemp, if_false] at hf
        have hpid : p.id = pid := by
          have : e.id = p.id := by rw [← Option.some_inj.mp hf]
          rw [← heid, this]
        obtain ⟨bb, hkey⟩ := (countList_nonempty_iff_key _).mp hemp
        have := (partyBins_we_key rows p.id bb).mp hkey
        obtain ⟨r, hr, hrp, _, hbal⟩ := this
        exact ⟨⟨p, hp, hpid⟩, r, hr, by rw [← hpid]; exact hrp, hbal⟩
    · rintro ⟨⟨p, hp, hpid⟩, r, hr, hrp, hbal⟩
      have hkey : ∃ q ∈ (partyBins rows p.id).2, q.1 = r.bin_type_id := by
        rw [partyBins_we_key]
        exact ⟨r, hr, by rw [hpid]; exact hrp, rfl, hbal⟩
      have hne : ¬ ((partyBins rows p.id).2).isEmpty = true := by
        rw [countList_nonempty_iff_key]
        exact ⟨r.bin_type_id, hkey⟩
      refine ⟨⟨p.id, p.name, (partyBins rows p.id).2⟩, ?_, hpid⟩
      rw [List.mem_filterMap]
      exact ⟨p, hp, by simp [hne]⟩

theorem lookupD_fold_we (b : String) (v : Int) :
    ∀ (l : List BalanceRow) (acc : CountList × CountList),
    (∀ r ∈ l, r.bin_type_id = b → r.balance = v) →
    lookupD (l.foldl binsStep acc).2 b
      = if v < 0 ∧ ∃ r ∈ l, r.bin_type_id = b then -v else lookupD acc.2 b := by
  intro l
  induction l with
  | nil => simp
  | cons r l ih =>
    intro acc hall
    rw [List.foldl_cons]
    have htail : ∀ r2 ∈ l, r2.bin_type_id = b → r2.balance = v :=
      fun r2 hr2 => hall r2 (List.mem_cons_of_mem r hr2)
    rw [ih _ htail]
    by_cases hrb : r.bin_type_id = b
    · have hrv : r.balance = v := hall r (List.mem_cons_self r l) hrb
      by_cases hneg : v < 0
      · have hstep : (binsStep acc r).2 = assocSet acc.2 r.bin_type_id (-r.balance) := by
          unfold binsStep
          rw [if_neg (by omega), if_pos (by omega)]
        have hhead : v < 0 ∧ ∃ r2 ∈ r :: l, r2.bin_type_id = b :=
          ⟨hneg, r, List.mem_cons_self r l, hrb⟩
        rw [if_pos hhead]
        by_cases hex : v < 0 ∧ ∃ r2 ∈ l, r2.bin_type_id = b
        · rw [if_pos hex]
        · rw [if_neg hex, hstep, hrb, hrv, lookupD_assocSet_self]
      · by_cases hzero : v = 0
        · have hstep : binsStep acc r = acc := by
            unfold binsStep
            rw [if_neg (by omega), if_neg (by omega)]
          rw [hstep, if_neg (by intro hc; exact hneg hc.1), if_neg (by intro hc; exact hneg hc.1)]
        · have hposv : 0 < v := by omega
          have hstep : (binsStep acc r).2 = acc.2 := by
            unfold binsStep
            rw [if_pos (by omega)]
          rw [hstep, if_neg (by intro hc; exact hneg hc.1), if_neg (by intro hc; exact hneg hc.1)]
    · have h2 : lookupD (binsStep acc r).2 b = lookupD acc.2 b := by
        unfold binsStep
        split
        · rfl
        · split
          · exact lookupD_assocSet_ne _ _ _ _ (fun hc => hrb hc.symm)
          · rfl
      rw [h2]
      by_cases hex : v < 0 ∧ ∃ r2 ∈ l, r2.bin_type_id = b
      · rw [if_pos hex, if_pos ⟨hex.1, by
          obtain ⟨r2, hr2, hb2⟩ := hex.2
          exact ⟨r2, List.mem_cons_of_mem r hr2, hb2⟩⟩]
      · rw [if_neg hex, if_neg (by
          rintro ⟨hv, r2, hr2, hb2⟩
          rcases List.mem_cons.mp hr2 with heq | hmem
          · rw [heq] at hb2
            exact hrb hb2
          · exact hex ⟨hv, r2, hmem, hb2⟩)]

theorem upsertBalance_mem (rows : List BalanceRow) (pid bid : String) (v : Int)
    (r : BalanceRow) (hr : r ∈ upsertBalance rows pid bid v) :
    (r ∈ rows ∧ ¬(r.party_id = pid ∧ r.bin_type_id = bid)) ∨ r = ⟨pid, bid, v⟩ := by
  unfold upsertBalance at hr
  by_cases hany : rows.any (fun r => r.party_id == pid && r.bin_type_id == bid)
  · rw [if_pos hany] at hr
    rw [List.mem_map] at hr
    obtain ⟨q, hq, hgq⟩ := hr
    by_cases hcond : q.party_id == pid && q.bin_type_id == bid
    · rw [if_pos hcond] at hgq
      exact Or.inr hgq.symm
    · rw [if_neg hcond] at hgq
      left
      refine ⟨hgq ▸ hq, ?_⟩
      rw [← hgq]
      intro ⟨h1, h2⟩
      exact hcond (by simp [h1, h2])
  · rw [if_neg hany] at hr
    rcases List.mem_append.mp hr with hmem | hmem
    · left
      refine ⟨hmem, ?_⟩
      intro ⟨h1, h2⟩
      rw [List.any_eq_true] at hany
      exact hany ⟨r, hmem, by simp [h1, h2]⟩
    · exact Or.inr (List.mem_singleton.mp hmem)

theorem upsertBalance_exists (rows : List BalanceRow) (pid bid : String) (v : Int) :
    ∃ r ∈ upsertBalance rows pid bid v,
      r.party_id = pid ∧ r.bin_type_id = bid ∧ r.balance = v := by
  unfold upsertBalance
  by_cases hany : rows.any (fun r => r.party_id == pid && r.bin_type_id == bid)
  · rw [if_pos hany]
    rw [List.any_eq_true] at hany
    obtain ⟨q, hq, hcond⟩ := hany
    exact ⟨⟨pid, bid, v⟩, List.mem_map.mpr ⟨q, hq, by rw [if_pos hcond]⟩, rfl, rfl, rfl⟩
  · rw [if_neg hany]
    exact ⟨⟨pid, bid, v⟩,
      List.mem_append.mpr (Or.inr (List.mem_singleton.mpr rfl)), rfl, rfl, rfl⟩

/-- C3: for a party in the we-owe partition, a direct edit with entered
nonnegative displayed value X stores the balance -X, and re-reading that
balance through the reload and the we-owe display map yields X again; for a
party in the owed-to-us partition the stored balance is X itself. -/
theorem C3_direct_edit_round_trip (rows : List BalanceRow) (pid b : String)
    (X : Int) (hX : 0 ≤ X) :
    directEditStored true X = -X
    ∧ lookupD (partyBins (upsertBalance rows pid b (directEditStored true X)) pid).2 b = X
    ∧ directEditStored false X = X := by
  refine ⟨rfl, ?_, rfl⟩
  have hstored : directEditStored true X = -X := rfl
  rw [hstored]
  set rows2 := upsertBalance rows pid b (-X) with hrows2
  have hall : ∀ r ∈ rows2.filter (fun r => r.party_id == pid),
      r.bin_type_id = b → r.balance = -X := by
    intro r hr hb
    rw [mem_filter_party] at hr
    rcases upsertBalance_mem rows pid b (-X) r hr.1 with ⟨_, hno⟩ | heq
    · exact absurd ⟨hr.2, hb⟩ hno
    · rw [heq]
  unfold partyBins
  rw [lookupD_fold_we b (-X) _ _ hall]
  rcases lt_or_eq_of_le hX with hpos | hzero
  · obtain ⟨r, hr, hp, hb, hv⟩ := upsertBalance_exists rows pid b (-X)
    rw [if_pos ⟨by omega, r, (mem_filter_party rows2 pid r).mpr ⟨hr, hp⟩, hb⟩]
    omega
  · rw [if_neg (by omega)]
    rw [← hzero]
    rfl

/-- Witness for C3: with no prior rows, storing the we-owe edit of value 3
for a concrete party and bin stores -3 and re-displays as 3. -/
theorem C3_witness :
    directEditStored true 3 = -3
    ∧ lookupD (partyBins (upsertBalance [] "p1" "b1" (directEditStored true 3)) "p1").2 "b1" = 3
    ∧ directEditStored false 3 = 3 :=
  C3_direct_edit_round_trip [] "p1" "b1" 3 (by decide)

/-! ## Claim C5: mixed bin display (corrected) -/

theorem insertLe_perm {α : Type} (le : α → α → Bool) (x : α) (l : List α) :
    (insertLe le x l).Perm (x :: l) := by
  induction l with
  | nil => exact List.Perm.refl _
  | cons y ys ih =>
    unfold insertLe
    by_cases hle : le x y
    · rw [if_pos hle]
    · rw [if_neg hle]
      exact (ih.cons y).trans (List.Perm.swap x y ys)

theorem sortLe_perm {α : Type} (le : α → α → Bool) (l : List α) :
    (sortLe le l).Perm l := by
  induction l with
  | nil => exact List.Perm.refl _
  | cons x xs ih =>
    have h1 : sortLe le (x :: xs) = insertLe le x (sortLe le xs) := rfl
    rw [h1]
    exact (insertLe_perm le x (sortLe le xs)).trans (ih.cons x)

theorem sortLe_eq_nil_iff {α : Type} (le : α → α → Bool) (l : List α) :
    sortLe le l = [] ↔ l = [] := by
  constructor
  · intro h
    have := sortLe_perm le l
    rw [h] at this
    exact this.symm.eq_nil
  · intro h
    rw [h]
    rfl

theorem sum_filter_pos (l : List CustomBin) (f : CustomBin → Int) (P : CustomBin → Bool)
    (h : ∀ c ∈ l, 0 ≤ f c) :
    ((l.filter (fun c => P c && decide (0 < f c))).map f).sum
      = ((l.filter P).map f).sum := by
  induction l with
  | nil => rfl
  | cons c cs ih =>
    have htail : ∀ c2 ∈ cs, 0 ≤ f c2 := fun c2 hc2 => h c2 (List.mem_cons_of_mem c hc2)
    by_cases hP : P c
    · by_cases hpos : 0 < f c
      · rw [List.filter_cons_of_pos (by simp [hP, hpos]),
          List.filter_cons_of_pos (by simp [hP]), List.map_cons, List.map_cons,
          List.sum_cons, List.sum_cons, ih htail]
      · have hzero : f c = 0 := le_antisymm (by omega) (h c (List.mem_cons_self c cs))
        rw [List.filter_cons_of_neg (by simp [hpos]),
          List.filter_cons_of_pos (by simp [hP]), List.map_cons, List.sum_cons,
          hzero, zero_add, ih htail]
    · rw [List.filter_cons_of_neg (by simp [hP]),
        List.filter_cons_of_neg (by simp [hP]), ih htail]

theorem displayedTotal_cell (category : String) (bins : CountList)
    (customs : List CustomBin) :
    displayedMixedTotal (mixedBinCellDisplay category bins customs)
      = if (customs.filter (fun b => b.category == category && decide (0 < lookupD bins b.id))).isEmpty
        then lookupD bins category
        else ((customs.filter
            (fun b => b.category == category && decide (0 < lookupD bins b.id))).map
          (fun b => lookupD bins b.id)).sum := by
  set fl := customs.filter (fun b => b.category == category && decide (0 < lookupD bins b.id))
    with hfl
  have hcell : mixedBinCellDisplay category bins customs
      = (if (sortLe (fun a b => a.name ≤ b.name) fl).isEmpty = true
         then MixedCellView.single (lookupD bins category)
         else MixedCellView.breakdown ((sortLe (fun a b => a.name ≤ b.name) fl).map
           (fun b => (b.name, lookupD bins b.id)))) := rfl
  have hiso : (sortLe (fun a b => a.name ≤ b.name) fl).isEmpty = fl.isEmpty := by
    by_cases hnil : fl = []
    · rw [hnil]
      rfl
    · have h2 : sortLe (fun a b => a.name ≤ b.name) fl ≠ [] := by
        intro hc
        exact hnil ((sortLe_eq_nil_iff _ fl).mp hc)
      rw [List.isEmpty_eq_false_iff_exists_mem.mpr, List.isEmpty_eq_false_iff_exists_mem.mpr]
      · exact List.exists_mem_of_ne_nil fl hnil
      · exact List.exists_mem_of_ne_nil _ h2
  by_cases hemp : fl.isEmpty
  · rw [hcell, if_pos (hiso.trans hemp), if_pos hemp]
    rfl
  · have hemp2 : fl.isEmpty = false := by
      cases h : fl.isEmpty
      · rfl
      · exact absurd h hemp
    have h2 : (sortLe (fun a b => a.name ≤ b.name) fl).isEmpty = false :=
      hiso.trans hemp2
    rw [hcell, if_neg (by rw [h2]; exact Bool.false_ne_true),
      if_neg (by rw [hemp2]; exact Bool.false_ne_true)]
    have hmm : ∀ l : List CustomBin,
        displayedMixedTotal (MixedCellView.breakdown
          (l.map (fun b => (b.name, lookupD bins b.id))))
        = (l.map (fun b => lookupD bins b.id)).sum := by
      intro l
      have hred : displayedMixedTotal (MixedCellView.breakdown
            (l.map (fun b => (b.name, lookupD bins b.id))))
          = ((l.map (fun b => (b.name, lookupD bins b.id))).map (fun p => p.2)).sum := rfl
      rw [hred, List.map_map]
      rfl
    rw [hmm]
    exact ((sortLe_perm (fun a b => a.name ≤ b.name) fl).map
      (fun b => lookupD bins b.id)).sum_eq

/-- C5 counterexample: a mixed bin whose database id differs from the
sub-category keys, with one associated custom sub-type of count 5 and a raw
stored value 7, displays 7 while the claim demands the sub-type sum 5: the
component associates sub-types with the cell by comparing their category to
the bin id, never to the sub-category of the bin. -/
theorem C5_counterexample_displayed_ne_claimed :
    displayedMixedTotal (mixedCellFor ⟨"b-77", "Mixed Wood", "mixed", some "mixedWood"⟩
        [⟨"c1", "Pallet", "mixedWood"⟩] [("b-77", 7), ("c1", 5)])
      ≠ claimedMixedTotal ⟨"b-77", "Mixed Wood", "mixed", some "mixedWood"⟩
        [⟨"c1", "Pallet", "mixedWood"⟩] [("b-77", 7), ("c1", 5)] := by
  decide

/-- C5 amended: the rendered mixed cell associates custom sub-types by
comparing their category key with the bin id.  When the sub-type ids avoid
the two overwritten keys, all sub-type counts are nonnegative and at least
one sub-type carrying the bin id as category has a strictly positive count,
the displayed total is the sum of the counts of those sub-types; when no
sub-type matches the bin id with a positive recomputed count, the cell shows
the value stored at the bin id in the recomputed map; and for a bin id
distinct from the two sub-category keys that stored value is the raw one. -/
theorem C5_mixed_display_characterisation (bin : BinTypeDef)
    (customs : List CustomBin) (bins : CountList) :
    ((∀ c ∈ customs, c.id ≠ "mixedWood" ∧ c.id ≠ "mixedPlastic") →
     (∀ c ∈ customs, 0 ≤ lookupD bins c.id) →
     (∃ c ∈ customs, c.category = bin.id ∧ 0 < lookupD bins c.id) →
      displayedMixedTotal (mixedCellFor bin customs bins)
        = ((customs.filter (fun c => c.category == bin.id)).map
            (fun c => lookupD bins c.id)).sum)
    ∧ ((∀ c ∈ customs, ¬(c.category = bin.id ∧
          0 < lookupD (updateMixedTotals customs bins) c.id)) →
      displayedMixedTotal (mixedCellFor bin customs bins)
        = lookupD (updateMixedTotals customs bins) bin.id)
    ∧ (bin.id ≠ "mixedWood" → bin.id ≠ "mixedPlastic" →
      lookupD (updateMixedTotals customs bins) bin.id = lookupD bins bin.id) := by
  have hraw : ∀ k, k ≠ "mixedWood" → k ≠ "mixedPlastic" →
      lookupD (updateMixedTotals customs bins) k = lookupD bins k := by
    intro k h1 h2
    unfold updateMixedTotals
    rw [lookupD_assocSet_ne _ _ _ _ h2, lookupD_assocSet_ne _ _ _ _ h1]
  refine ⟨?_, ?_, fun h1 h2 => hraw bin.id h1 h2⟩
  · intro hsub hnn hpos
    have hpres : ∀ c ∈ customs,
        lookupD (updateMixedTotals customs bins) c.id = lookupD bins c.id := by
      intro c hc
      exact hraw c.id (hsub c hc).1 (hsub c hc).2
    unfold mixedCellFor
    rw [displayedTotal_cell]
    have hfeq : customs.filter
        (fun b => b.category == bin.id && decide (0 < lookupD (updateMixedTotals customs bins) b.id))
        = customs.filter (fun b => b.category == bin.id && decide (0 < lookupD bins b.id)) := by
      apply List.filter_congr
      intro c hc
      rw [hpres c hc]
    rw [hfeq]
    obtain ⟨c0, hc0, hcat, hcpos⟩ := hpos
    have hne : (customs.filter
        (fun b => b.category == bin.id && decide (0 < lookupD bins b.id))).isEmpty = false := by
      rw [List.isEmpty_eq_false_iff_exists_mem]
      exact ⟨c0, List.mem_filter.mpr ⟨hc0, by simp [hcat, hcpos]⟩⟩
    rw [if_neg (by rw [hne]; exact Bool.false_ne_true)]
    have hmapeq : (customs.filter
          (fun b => b.category == bin.id && decide (0 < lookupD bins b.id))).map
          (fun b => lookupD (updateMixedTotals customs bins) b.id)
        = (customs.filter
          (fun b => b.category == bin.id && decide (0 < lookupD bins b.id))).map
          (fun b => lookupD bins b.id) := by
      apply List.map_congr_left
      intro c hc
      exact hpres c (List.mem_filter.mp hc).1
    rw [hmapeq]
    exact sum_filter_pos customs (fun c => lookupD bins c.id)
      (fun c => c.category == bin.id) hnn
  · intro hno
    unfold mixedCellFor
    rw [displayedTotal_cell]
    have hnil : customs.filter
        (fun b => b.category == bin.id &&
          decide (0 < lookupD (updateMixedTotals customs bins) b.id)) = [] := by
      rw [List.filter_eq_nil_iff]
      intro c hc
      intro hcond
      rw [Bool.and_eq_true] at hcond
      exact hno c hc ⟨by simpa using hcond.1, by simpa using hcond.2⟩
    rw [hnil]
    rfl

/-- Witness for C5: for the bin with literal id mixedWood and a sub-type of
count 5 the displayed total is the sub-type sum, and for the bin with a
database id the displayed value is its raw stored value 7. -/
theorem C5_witness :
    displayedMixedTotal (mixedCellFor ⟨"mixedWood", "Mixed Wood", "mixed", some "mixedWood"⟩
        [⟨"c1", "Pallet", "mixedWood"⟩] [("c1", 5)])
      = (((([⟨"c1", "Pallet", "mixedWood"⟩] : List CustomBin)).filter
          (fun c => c.category == "mixedWood")).map
          (fun c => lookupD [("c1", 5)] c.id)).sum
    ∧ displayedMixedTotal (mixedCellFor ⟨"b-77", "Mixed Wood", "mixed", some "mixedWood"⟩
        [⟨"c1", "Pallet", "mixedWood"⟩] [("b-77", 7), ("c1", 0)])
      = lookupD (updateMixedTotals [⟨"c1", "Pallet", "mixedWood"⟩] [("b-77", 7), ("c1", 0)]) "b-77"
    ∧ lookupD (updateMixedTotals [⟨"c1", "Pallet", "mixedWood"⟩] [("b-77", 7), ("c1", 0)]) "b-77"
      = lookupD [("b-77", 7), ("c1", 0)] "b-77" := by
  refine ⟨?_, ?_, ?_⟩
  · exact (C5_mixed_display_characterisation ⟨"mixedWood", "Mixed Wood", "mixed", some "mixedWood"⟩
      [⟨"c1", "Pallet", "mixedWood"⟩] [("c1", 5)]).1 (by decide) (by decide) (by decide)
  · exact (C5_mixed_display_characterisation ⟨"b-77", "Mixed Wood", "mixed", some "mixedWood"⟩
      [⟨"c1", "Pallet", "mixedWood"⟩] [("b-77", 7), ("c1", 0)]).2.1 (by decide)
  · exact (C5_mixed_display_characterisation ⟨"b-77", "Mixed Wood", "mixed", some "mixedWood"⟩
      [⟨"c1", "Pallet", "mixedWood"⟩] [("b-77", 7), ("c1", 0)]).2.2 (by decide) (by decide)

/-! ## Claim C10: additive AI stock updates -/

theorem getF_setF_same (it : StockItem) (f : FieldKey) (v : ℚ) :
    getF (setF it f v) f = v := by
  cases f <;> rfl

theorem getF_setF_ne (it : StockItem) (f g : FieldKey) (v : ℚ) (h : f ≠ g) :
    getF (setF it f v) g = getF it g := by
  cases f <;> cases g <;> first
    | rfl
    | exact absurd rfl h

theorem setF_getF_self (it : StockItem) (f : FieldKey) :
    setF it f (getF it f) = it := by
  cases f <;> rfl

theorem setF_id (it : StockItem) (f : FieldKey) (v : ℚ) :
    (setF it f v).id = it.id := by
  cases f <;> rfl

theorem getF_applyFold_not_mem (base : StockItem) :
    ∀ (ps : List (FieldKey × ℚ)) (acc : StockItem) (f : FieldKey),
    f ∉ ps.map Prod.fst →
    getF (ps.foldl (fun it p => setF it p.1 (getF base p.1 + p.2)) acc) f = getF acc f := by
  intro ps
  induction ps with
  | nil => intro acc f _; rfl
  | cons p ps ih =>
    intro acc f hni
    rw [List.map_cons] at hni
    have hpf : p.1 ≠ f := fun hc => hni (by rw [hc]; exact List.mem_cons_self f _)
    have htail : f ∉ ps.map Prod.fst := fun hc => hni (List.mem_cons_of_mem _ hc)
    rw [List.foldl_cons, ih _ f htail, getF_setF_ne _ _ _ _ hpf]

theorem applyFold_id (base : StockItem) :
    ∀ (ps : List (FieldKey × ℚ)) (acc : StockItem),
    (ps.foldl (fun it p => setF it p.1 (getF base p.1 + p.2)) acc).id = acc.id := by
  intro ps
  induction ps with
  | nil => intro acc; rfl
  | cons p ps ih =>
    intro acc
    rw [List.foldl_cons, ih, setF_id]

theorem applyParams_id (base : StockItem) (params : List (FieldKey × ℚ)) :
    (applyParams base params).id = base.id :=
  applyFold_id base params base

theorem getF_applyParams_mem (base : StockItem) :
    ∀ (ps : List (FieldKey × ℚ)) (acc : StockItem) (f : FieldKey) (d : ℚ),
    (ps.map Prod.fst).Pairwise (fun a b => a ≠ b) →
    (f, d) ∈ ps →
    getF (ps.foldl (fun it p => setF it p.1 (getF base p.1 + p.2)) acc) f
      = getF base f + d := by
  intro ps
  induction ps with
  | nil => intro acc f d _ hm; cases hm
  | cons p ps ih =>
    intro acc f d hpw hm
    rw [List.map_cons, List.pairwise_cons] at hpw
    rcases List.mem_cons.mp hm with heq | hmem
    · have hni : f ∉ ps.map Prod.fst := by
        intro hc
        exact (heq ▸ hpw.1) f hc rfl
      rw [List.foldl_cons, getF_applyFold_not_mem base ps _ f hni, ← heq,
        getF_setF_same]
    · rw [List.foldl_cons]
      exact ih _ f d hpw.2 hmem

theorem find_by_id (items : List StockItem) (it0 : StockItem) (hmem : it0 ∈ items)
    (huniq : ∀ i ∈ items, i.id = it0.id → i = it0) :
    items.find? (fun i => i.id == it0.id) = some it0 := by
  induction items with
  | nil => cases hmem
  | cons i is ih =>
    by_cases h : i.id == it0.id
    · have h1 : List.find? (fun j => j.id == it0.id) (i :: is) = some i :=
        List.find?_cons_of_pos is h
      rw [h1, huniq i (List.mem_cons_self i is) (by simpa using h)]
    · have h1 : List.find? (fun j => j.id == it0.id) (i :: is)
          = List.find? (fun j => j.id == it0.id) is :=
        List.find?_cons_of_neg is h
      rw [h1]
      have hmem2 : it0 ∈ is := by
        rcases List.mem_cons.mp hmem with heq | hm
        · exfalso
          apply h
          rw [← heq]
          exact beq_self_eq_true it0.id
        · exact hm
      exact ih hmem2 (fun i2 hi2 => huniq i2 (List.mem_cons_of_mem i hi2))

theorem aiLoop (items : List StockItem) (it0 : StockItem)
    (hview : items.find? (fun i => i.id == it0.id) = some it0) :
    ∀ (ps done : List (FieldKey × ℚ)) (k : Nat),
    (((done ++ ps).map Prod.fst).Pairwise (fun a b => a ≠ b)) →
    ps.foldl (fun st p => handleStockUpdate items st.1 st.2 it0.id p.1 (getF it0 p.1 + p.2))
      (items.map (fun i => if i.id == it0.id then applyParams it0 done else i), k)
    = (items.map (fun i => if i.id == it0.id then applyParams it0 (done ++ ps) else i),
       k + (ps.filter (fun p => decide (p.2 ≠ 0))).length) := by
  intro ps
  induction ps with
  | nil =>
    intro done k _
    rw [List.foldl_nil, List.append_nil]
    have : k + (List.filter (fun p => decide (p.2 ≠ 0)) ([] : List (FieldKey × ℚ))).length
        = k := rfl
    rw [this]
  | cons p ps ih =>
    intro done k hpw
    have hnotin : p.1 ∉ done.map Prod.fst := by
      intro hc
      have hsp : (done.map Prod.fst ++ p.1 :: ps.map Prod.fst).Pairwise
          (fun a b => a ≠ b) := by
        simpa using hpw
      rw [List.pairwise_append] at hsp
      exact hsp.2.2 p.1 hc p.1 (List.mem_cons_self _ _) rfl
    have hA : getF (applyParams it0 done) p.1 = getF it0 p.1 :=
      getF_applyFold_not_mem it0 done it0 p.1 hnotin
    have happ : applyParams it0 (done ++ [p])
        = setF (applyParams it0 done) p.1 (getF it0 p.1 + p.2) := by
      unfold applyParams
      rw [List.foldl_append]
      rfl
    have hstep : handleStockUpdate items
        (items.map (fun i => if i.id == it0.id then applyParams it0 done else i)) k
        it0.id p.1 (getF it0 p.1 + p.2)
        = (items.map (fun i => if i.id == it0.id then applyParams it0 (done ++ [p]) else i),
           if p.2 = 0 then k else k + 1) := by
      simp only [handleStockUpdate, hview]
      by_cases hz : p.2 = 0
      · rw [if_pos (by rw [hz, add_zero]), if_pos hz]
        congr 1
        apply List.map_congr_left
        intro i _
        by_cases hid : i.id == it0.id
        · rw [if_pos hid, if_pos hid, happ, hz, add_zero, hA.symm, setF_getF_self]
        · rw [if_neg hid, if_neg hid]
      · rw [if_neg (by intro hc; exact hz (by linarith [hc.symm])), if_neg hz]
        congr 1
        rw [List.map_map]
        apply List.map_congr_left
        intro i _
        by_cases hid : i.id == it0.id
        · have h1 : ((fun i => if i.id == it0.id then setF i p.1 (getF it0 p.1 + p.2) else i) ∘
              (fun i => if i.id == it0.id then applyParams it0 done else i)) i
              = setF (applyParams it0 done) p.1 (getF it0 p.1 + p.2) := by
            simp only [Function.comp]
            rw [if_pos hid]
            rw [if_pos (by rw [applyParams_id]; exact beq_self_eq_true it0.id)]
          rw [h1, if_pos hid, happ]
        · have h1 : ((fun i => if i.id == it0.id then setF i p.1 (getF it0 p.1 + p.2) else i) ∘
              (fun i => if i.id == it0.id then applyParams it0 done else i)) i = i := by
            simp only [Function.comp]
            rw [if_neg hid, if_neg hid]
          rw [h1, if_neg hid]
    rw [List.foldl_cons, hstep]
    have hpw2 : (((done ++ [p]) ++ ps).map Prod.fst).Pairwise (fun a b => a ≠ b) := by
      rw [List.append_assoc, List.singleton_append]
      exact hpw
    rw [ih (done ++ [p]) (if p.2 = 0 then k else k + 1) hpw2, List.append_assoc,
      List.singleton_append]
    by_cases hz : p.2 = 0
    · rw [if_pos hz, List.filter_cons_of_neg (by simp [hz])]
    · rw [if_neg hz, List.filter_cons_of_pos (by simpa using hz),
        List.length_cons]
      have harith : k + 1 + (List.filter (fun p => decide (p.2 ≠ 0)) ps).length
          = k + ((List.filter (fun p => decide (p.2 ≠ 0)) ps).length + 1) := by
        omega
      rw [harith]

/-- C10: an interpreted UPDATE targeting no existing item mutates nothing;
targeting an existing item (matched case-insensitively, with unique id in
the list) it adds each supplied parameter to the current value of the
corresponding field of that item rather than overwriting it, and appends
exactly one activity-log entry per parameter whose delta is nonzero. -/
theorem C10_ai_update_additive (items : List StockItem) (logN : Nat)
    (updateName : String) (params : List (FieldKey × ℚ)) (it0 : StockItem) :
    (items.find? (fun i => lowerStr i.name == lowerStr updateName) = none →
      aiStockUpdate items logN updateName params = (items, logN))
    ∧ (items.find? (fun i => lowerStr i.name == lowerStr updateName) = some it0 →
       (∀ i ∈ items, i.id = it0.id → i = it0) →
       ((params.map Prod.fst).Pairwise (fun a b => a ≠ b)) →
       (aiStockUpdate items logN updateName params
          = (items.map (fun i => if i.id == it0.id then applyParams it0 params else i),
             logN + (params.filter (fun p => decide (p.2 ≠ 0))).length)
        ∧ ∀ f d, (f, d) ∈ params → getF (applyParams it0 params) f = getF it0 f + d)) := by
  constructor
  · intro hnone
    simp only [aiStockUpdate, hnone]
  · intro hfind huniq hpw
    have hmem : it0 ∈ items := List.mem_of_find?_eq_some hfind
    have hview := find_by_id items it0 hmem huniq
    constructor
    · have hinit : items.map (fun i => if i.id == it0.id then applyParams it0 [] else i)
          = items := by
        have : ∀ i ∈ items, (if i.id == it0.id then applyParams it0 [] else i) = i := by
          intro i hi
          by_cases hid : i.id == it0.id
          · rw [if_pos hid]
            exact (huniq i hi (by simpa using hid)).symm
          · rw [if_neg hid]
        rw [List.map_congr_left this]
        simp
      have hloop := aiLoop items it0 hview params [] logN (by simpa using hpw)
      rw [List.nil_append] at hloop
      rw [hinit] at hloop
      simp only [aiStockUpdate, hfind]
      exact hloop
    · intro f d hm
      exact getF_applyParams_mem it0 params it0 f d hpw hm

/-- The stock item of the C10 witness. -/
def c10Item : StockItem := ⟨"i1", "widget", "", 0, 0, 10, 1, 100, 2, "#10B981"⟩

/-- Witness for C10: updating item widget with packed +5 and lost +0 adds 5
to packed, leaves lost unchanged, and logs exactly one entry. -/
theorem C10_witness :
    aiStockUpdate [c10Item] 0 "Widget" [(FieldKey.packed, 5), (FieldKey.lost, 0)]
      = ([c10Item].map (fun i => if i.id == c10Item.id then
          applyParams c10Item [(FieldKey.packed, 5), (FieldKey.lost, 0)] else i),
         0 + (([(FieldKey.packed, 5), (FieldKey.lost, 0)] : List (FieldKey × ℚ)).filter
           (fun p => decide (p.2 ≠ 0))).length)
    ∧ ∀ f d, (f, d) ∈ ([(FieldKey.packed, 5), (FieldKey.lost, 0)] : List (FieldKey × ℚ)) →
        getF (applyParams c10Item [(FieldKey.packed, 5), (FieldKey.lost, 0)]) f
          = getF c10Item f + d :=
  (C10_ai_update_additive [c10Item] 0 "Widget" [(FieldKey.packed, 5), (FieldKey.lost, 0)]
      c10Item).2
    (by rfl)
    (fun i hi _ => List.mem_singleton.mp hi)
    (by decide)

/-! ## Claim C9: the Levenshtein matrix computes the standard edit distance -/

theorem levMatrixAux_congr (a b : List Char) :
    ∀ (f : Nat), ∀ (g j i : Nat), j + i < f → j + i < g →
    levMatrixAux a b f j i = levMatrixAux a b g j i := by
  intro f
  induction f with
  | zero => intro g j i hf _; omega
  | succ f ih =>
    intro g j i hf hg
    cases g with
    | zero => omega
    | succ g =>
      cases j with
      | zero => rfl
      | succ j =>
        cases i with
        | zero => rfl
        | succ i =>
          have e1 : levMatrixAux a b (f + 1) (j + 1) (i + 1)
              = min (levMatrixAux a b f (j + 1) i + 1)
                (min (levMatrixAux a b f j (i + 1) + 1)
                  (levMatrixAux a b f j i
                    + (if a.getD i ' ' = b.getD j ' ' then 0 else 1))) := rfl
          have e2 : levMatrixAux a b (g + 1) (j + 1) (i + 1)
              = min (levMatrixAux a b g (j + 1) i + 1)
                (min (levMatrixAux a b g j (i + 1) + 1)
                  (levMatrixAux a b g j i
                    + (if a.getD i ' ' = b.getD j ' ' then 0 else 1))) := rfl
          rw [e1, e2, ih g (j + 1) i (by omega) (by omega),
            ih g j (i + 1) (by omega) (by omega), ih g j i (by omega) (by omega)]

theorem levMatrix_succ_succ (a b : List Char) (j i : Nat) :
    levMatrix a b (j + 1) (i + 1)
      = min (levMatrix a b (j + 1) i + 1)
        (min (levMatrix a b j (i + 1) + 1)
          (levMatrix a b j i + (if a.getD i ' ' = b.getD j ' ' then 0 else 1))) := by
  unfold levMatrix
  have e1 : levMatrixAux a b ((j + 1) + (i + 1) + 1) (j + 1) (i + 1)
      = min (levMatrixAux a b ((j + 1) + (i + 1)) (j + 1) i + 1)
        (min (levMatrixAux a b ((j + 1) + (i + 1)) j (i + 1) + 1)
          (levMatrixAux a b ((j + 1) + (i + 1)) j i
            + (if a.getD i ' ' = b.getD j ' ' then 0 else 1))) := rfl
  rw [e1,
    levMatrixAux_congr a b ((j + 1) + (i + 1)) ((j + 1) + i + 1) (j + 1) i
      (by omega) (by omega),
    levMatrixAux_congr a b ((j + 1) + (i + 1)) (j + (i + 1) + 1) j (i + 1)
      (by omega) (by omega),
    levMatrixAux_congr a b ((j + 1) + (i + 1)) (j + i + 1) j i (by omega) (by omega)]

theorem levSpec_nil_right (xs : List Char) : levSpec xs [] = xs.length := by
  cases xs <;> simp [levSpec]

theorem levSpec_nil_left (ys : List Char) : levSpec [] ys = ys.length := by
  simp [levSpec]

theorem levSpec_cons_cons (x y : Char) (xs ys : List Char) :
    levSpec (x :: xs) (y :: ys)
      = min (levSpec xs (y :: ys) + 1)
        (min (levSpec (x :: xs) ys + 1) (levSpec xs ys + (if x = y then 0 else 1))) := by
  rw [levSpec]

theorem take_succ_reverse (l : List Char) (n : Nat) (h : n < l.length) :
    (l.take (n + 1)).reverse = l.getD n ' ' :: (l.take n).reverse := by
  have h1 : l.take (n + 1) = l.take n ++ [l.getD n ' '] := by
    rw [List.take_succ, List.getElem?_eq_getElem h, List.getD_eq_getElem l ' ' h]
    rfl
  rw [h1, List.reverse_append, List.reverse_singleton, List.singleton_append]

theorem levMatrix_eq_levSpec (a b : List Char) :
    ∀ (n j i : Nat), j + i ≤ n → i ≤ a.length → j ≤ b.length →
    levMatrix a b j i = levSpec ((a.take i).reverse) ((b.take j).reverse) := by
  intro n
  induction n with
  | zero =>
    intro j i hn _ _
    have hj : j = 0 := by omega
    have hi : i = 0 := by omega
    subst hj hi
    rw [List.take_zero, List.take_zero, List.reverse_nil, levSpec_nil_left]
    rfl
  | succ n ih =>
    intro j i hn hi hj
    cases j with
    | zero =>
      have h1 : levMatrix a b 0 i = i := rfl
      rw [h1, List.take_zero, List.reverse_nil, levSpec_nil_right,
        List.length_reverse, List.length_take]
      omega
    | succ j =>
      cases i with
      | zero =>
        have h1 : levMatrix a b (j + 1) 0 = j + 1 := rfl
        rw [h1, List.take_zero, List.reverse_nil, levSpec_nil_left,
          List.length_reverse, List.length_take]
        omega
      | succ i =>
        rw [levMatrix_succ_succ, take_succ_reverse a i (by omega),
          take_succ_reverse b j (by omega),
          levSpec_cons_cons (a.getD i ' ') (b.getD j ' ')
            ((a.take i).reverse) ((b.take j).reverse),
          ih (j + 1) i (by omega) (by omega) hj,
          ih j (i + 1) (by omega) hi (by omega),
          ih j i (by omega) (by omega) (by omega),
          take_succ_reverse a i (by omega), take_succ_reverse b j (by omega)]

set_option maxHeartbeats 1000000 in
theorem levSpec_snoc (x y : Char) :
    ∀ (n : Nat), ∀ (u v : List Char), u.length + v.length ≤ n →
    levSpec (u ++ [x]) (v ++ [y])
      = min (levSpec u (v ++ [y]) + 1)
        (min (levSpec (u ++ [x]) v + 1) (levSpec u v + (if x = y then 0 else 1))) := by
  intro n
  induction n with
  | zero =>
    intro u v hn
    have hu : u = [] := by
      cases u
      · rfl
      · simp at hn
    have hv : v = [] := by
      cases v
      · rfl
      · simp at hn
    subst hu hv
    simp only [List.nil_append]
    rw [levSpec_cons_cons x y [] []]
  | succ n ih =>
    intro u v hn
    cases u with
    | nil =>
      cases v with
      | nil =>
        simp only [List.nil_append]
        rw [levSpec_cons_cons x y [] []]
      | cons y2 v2 =>
        simp only [List.nil_append, List.cons_append]
        rw [levSpec_cons_cons x y2 [] (v2 ++ [y])]
        have hmid := ih [] v2 (by simp at hn ⊢; omega)
        simp only [List.nil_append] at hmid
        rw [hmid, levSpec_cons_cons x y2 [] v2]
        rw [levSpec_nil_left (y2 :: (v2 ++ [y])), levSpec_nil_left (v2 ++ [y]),
          levSpec_nil_left (y2 :: v2), levSpec_nil_left v2]
        simp only [List.length_append, List.length_cons, List.length_nil]
        generalize (if x = y then (0 : Nat) else 1) = c
        generalize (if x = y2 then (0 : Nat) else 1) = d
        generalize levSpec [x] v2 = t
        apply le_antisymm <;> simp only [le_min_iff, min_le_iff] <;> omega
    | cons x2 u2 =>
      cases v with
      | nil =>
        simp only [List.nil_append, List.cons_append]
        rw [levSpec_cons_cons x2 y (u2 ++ [x]) []]
        have hmid := ih u2 [] (by simp at hn ⊢; omega)
        simp only [List.nil_append] at hmid
        rw [hmid, levSpec_cons_cons x2 y u2 []]
        rw [levSpec_nil_right (x2 :: (u2 ++ [x])), levSpec_nil_right (u2 ++ [x]),
          levSpec_nil_right (x2 :: u2), levSpec_nil_right u2]
        simp only [List.length_append, List.length_cons, List.length_nil]
        generalize (if x = y then (0 : Nat) else 1) = c
        generalize (if x2 = y then (0 : Nat) else 1) = d
        generalize levSpec u2 [y] = t
        apply le_antisymm <;> simp only [le_min_iff, min_le_iff] <;> omega
      | cons y2 v2 =>
        have hlen : u2.length + (y2 :: v2).length ≤ n := by
          simp at hn ⊢
          omega
        have hlen2 : (x2 :: u2).length + v2.length ≤ n := by
          simp at hn ⊢
          omega
        have hlen3 : u2.length + v2.length ≤ n := by
          simp at hn ⊢
          omega
        simp only [List.cons_append]
        rw [levSpec_cons_cons x2 y2 (u2 ++ [x]) (v2 ++ [y])]
        have e1 := ih u2 (y2 :: v2) hlen
        have e2 := ih (x2 :: u2) v2 hlen2
        have e3 := ih u2 v2 hlen3
        simp only [List.cons_append] at e1 e2 e3
        rw [e1, e2, e3,
          levSpec_cons_cons x2 y2 u2 (v2 ++ [y]),
          levSpec_cons_cons x2 y2 (u2 ++ [x]) v2,
          levSpec_cons_cons x2 y2 u2 v2]
        generalize (if x = y then (0 : Nat) else 1) = c
        generalize (if x2 = y2 then (0 : Nat) else 1) = d
        generalize levSpec u2 (y2 :: (v2 ++ [y])) = vB1
        generalize levSpec (u2 ++ [x]) (y2 :: v2) = vBx
        generalize levSpec u2 (y2 :: v2) = vB
        generalize levSpec (x2 :: u2) (v2 ++ [y]) = vC1
        generalize levSpec (x2 :: (u2 ++ [x])) v2 = vCx
        generalize levSpec (x2 :: u2) v2 = vC
        generalize levSpec u2 (v2 ++ [y]) = vA1
        generalize levSpec (u2 ++ [x]) v2 = vAx
        generalize levSpec u2 v2 = vA
        apply le_antisymm <;> simp only [le_min_iff, min_le_iff] <;> omega

theorem levSpec_reverse :
    ∀ (n : Nat), ∀ (u v : List Char), u.length + v.length ≤ n →
    levSpec u.reverse v.reverse = levSpec u v := by
  intro n
  induction n with
  | zero =>
    intro u v hn
    have hu : u = [] := by
      cases u
      · rfl
      · simp at hn
    have hv : v = [] := by
      cases v
      · rfl
      · simp at hn
    subst hu hv
    rfl
  | succ n ih =>
    intro u v hn
    cases u with
    | nil =>
      rw [List.reverse_nil, levSpec_nil_left, levSpec_nil_left, List.length_reverse]
    | cons x u2 =>
      cases v with
      | nil =>
        rw [List.reverse_nil, levSpec_nil_right, levSpec_nil_right, List.length_reverse]
      | cons y v2 =>
        rw [List.reverse_cons, List.reverse_cons]
        rw [levSpec_snoc x y (u2.reverse.length + v2.reverse.length) u2.reverse v2.reverse
          (Nat.le_refl _)]
        rw [← List.reverse_cons y v2, ← List.reverse_cons x u2]
        have hlen : u2.length + (y :: v2).length ≤ n := by
          simp at hn ⊢
          omega
        have hlen2 : (x :: u2).length + v2.length ≤ n := by
          simp at hn ⊢
          omega
        have hlen3 : u2.length + v2.length ≤ n := by
          simp at hn ⊢
          omega
        rw [ih u2 (y :: v2) hlen, ih (x :: u2) v2 hlen2, ih u2 v2 hlen3,
          levSpec_cons_cons x y u2 v2]

theorem mem_insertLe {α : Type} (le : α → α → Bool) (x z : α) (l : List α) :
    z ∈ insertLe le x l ↔ z = x ∨ z ∈ l := by
  rw [(insertLe_perm le x l).mem_iff, List.mem_cons]

theorem insertLe_pairwise {α : Type} (le : α → α → Bool)
    (htot : ∀ p q, le p q = false → le q p = true)
    (htrans : ∀ p q r, le p q = true → le q r = true → le p r = true)
    (x : α) (l : List α) (hl : l.Pairwise (fun p q => le p q = true)) :
    (insertLe le x l).Pairwise (fun p q => le p q = true) := by
  induction l with
  | nil => simp [insertLe]
  | cons y ys ih =>
    rw [List.pairwise_cons] at hl
    unfold insertLe
    by_cases hxy : le x y
    · rw [if_pos hxy]
      rw [List.pairwise_cons]
      refine ⟨?_, List.pairwise_cons.mpr hl⟩
      intro z hz
      rcases List.mem_cons.mp hz with heq | hmem
      · rw [heq]
        exact hxy
      · exact htrans x y z hxy (hl.1 z hmem)
    · rw [if_neg hxy]
      rw [List.pairwise_cons]
      refine ⟨?_, ih hl.2⟩
      intro z hz
      rcases (mem_insertLe le x z ys).mp hz with heq | hmem
      · rw [heq]
        exact htot x y (by
          cases h : le x y
          · rfl
          · exact absurd h hxy)
      · exact hl.1 z hmem

theorem sortLe_pairwise {α : Type} (le : α → α → Bool)
    (htot : ∀ p q, le p q = false → le q p = true)
    (htrans : ∀ p q r, le p q = true → le q r = true → le p r = true)
    (l : List α) :
    (sortLe le l).Pairwise (fun p q => le p q = true) := by
  induction l with
  | nil => exact List.Pairwise.nil
  | cons x xs ih =>
    have h1 : sortLe le (x :: xs) = insertLe le x (sortLe le xs) := rfl
    rw [h1]
    exact insertLe_pairwise le htot htrans x (sortLe le xs) ih

/-- C9: the helper computes the standard recursive Levenshtein edit distance
of the lower-cased strings (first conjunct); an exact case-insensitive match
is returned directly; otherwise the suggestion returned is a supplier at
minimum edit distance from the entered name, offered precisely when that
distance is at most 3, and the name is treated as new otherwise. -/
theorem C9_fuzzy_supplier_match (name : String) (suppliers : List Supplier) :
    (∀ a b : String, levenshteinDistance a b
        = levSpec (a.data.map Char.toLower) (b.data.map Char.toLower))
    ∧ ((∃ s ∈ suppliers, lowerStr s.name = lowerStr (trimStr name)) →
        ∃ s ∈ suppliers, findSupplier name suppliers = some (.found s)
          ∧ lowerStr s.name = lowerStr (trimStr name))
    ∧ ((∀ s ∈ suppliers, lowerStr s.name ≠ lowerStr (trimStr name)) →
       (∃ s0 ∈ suppliers, levenshteinDistance (lowerStr (trimStr name)) s0.name ≤ 3) →
        ∃ s ∈ suppliers, findSupplier name suppliers = some (.suggestion s.name)
          ∧ levenshteinDistance (lowerStr (trimStr name)) s.name ≤ 3
          ∧ ∀ t ∈ suppliers, levenshteinDistance (lowerStr (trimStr name)) s.name
              ≤ levenshteinDistance (lowerStr (trimStr name)) t.name)
    ∧ ((∀ s ∈ suppliers, lowerStr s.name ≠ lowerStr (trimStr name)) →
       (∀ s ∈ suppliers, 3 < levenshteinDistance (lowerStr (trimStr name)) s.name) →
        findSupplier name suppliers = none) := by
  have htot : ∀ p q : Supplier × Nat,
      (fun p q : Supplier × Nat => decide (p.2 ≤ q.2)) p q = false →
      (fun p q : Supplier × Nat => decide (p.2 ≤ q.2)) q p = true := by
    intro p q h
    simp only [decide_eq_false_iff_not] at h
    simp only [decide_eq_true_eq]
    omega
  have htrans : ∀ p q r : Supplier × Nat,
      (fun p q : Supplier × Nat => decide (p.2 ≤ q.2)) p q = true →
      (fun p q : Supplier × Nat => decide (p.2 ≤ q.2)) q r = true →
      (fun p q : Supplier × Nat => decide (p.2 ≤ q.2)) p r = true := by
    intro p q r h1 h2
    simp only [decide_eq_true_eq] at h1 h2 ⊢
    omega
  refine ⟨?_, ?_, ?_, ?_⟩
  · intro a b
    have h1 := levMatrix_eq_levSpec (a.data.map Char.toLower) (b.data.map Char.toLower)
      ((b.data.map Char.toLower).length + (a.data.map Char.toLower).length)
      (b.data.map Char.toLower).length (a.data.map Char.toLower).length
      (Nat.le_refl _) (Nat.le_refl _) (Nat.le_refl _)
    rw [List.take_length, List.take_length] at h1
    show levMatrix (a.data.map Char.toLower) (b.data.map Char.toLower)
      (b.data.map Char.toLower).length (a.data.map Char.toLower).length = _
    rw [h1]
    exact levSpec_reverse
      ((a.data.map Char.toLower).length + (b.data.map Char.toLower).length)
      (a.data.map Char.toLower) (b.data.map Char.toLower) (Nat.le_refl _)
  · intro hex
    have hfind : (suppliers.find?
        (fun s => lowerStr s.name == lowerStr (trimStr name))).isSome := by
      rw [List.find?_isSome]
      obtain ⟨s, hs, he⟩ := hex
      exact ⟨s, hs, by simpa using he⟩
    obtain ⟨s, hsome⟩ := Option.isSome_iff_exists.mp hfind
    refine ⟨s, List.mem_of_find?_eq_some hsome, ?_, ?_⟩
    · simp only [findSupplier, hsome]
    · have := List.find?_some hsome
      simpa using this
  · intro hnoexact hle3
    have hnone : suppliers.find?
        (fun s => lowerStr s.name == lowerStr (trimStr name)) = none := by
      rw [List.find?_eq_none]
      intro s hs
      simpa using hnoexact s hs
    obtain ⟨s0, hs0, hd0⟩ := hle3
    cases hsg : sortLe (fun p q => p.2 ≤ q.2)
        (suppliers.map (fun s => (s, levenshteinDistance (lowerStr (trimStr name)) s.name)))
      with
    | nil =>
      exfalso
      have hnil := (sortLe_eq_nil_iff _ _).mp hsg
      rw [List.map_eq_nil_iff] at hnil
      rw [hnil] at hs0
      cases hs0
    | cons h0 rest =>
      have hmem0 : h0 ∈ suppliers.map
          (fun s => (s, levenshteinDistance (lowerStr (trimStr name)) s.name)) := by
        have := (sortLe_perm (fun p q : Supplier × Nat => decide (p.2 ≤ q.2))
          (suppliers.map (fun s => (s, levenshteinDistance (lowerStr (trimStr name)) s.name)))).mem_iff.mp
          (hsg ▸ List.mem_cons_self h0 rest)
        exact this
      obtain ⟨s1, hs1, hfs1⟩ := List.mem_map.mp hmem0
      have hpw := sortLe_pairwise (fun p q : Supplier × Nat => decide (p.2 ≤ q.2))
        htot htrans
        (suppliers.map (fun s => (s, levenshteinDistance (lowerStr (trimStr name)) s.name)))
      rw [hsg, List.pairwise_cons] at hpw
      have hminall : ∀ t ∈ suppliers,
          h0.2 ≤ levenshteinDistance (lowerStr (trimStr name)) t.name := by
        intro t ht
        have htp : (t, levenshteinDistance (lowerStr (trimStr name)) t.name) ∈
            suppliers.map (fun s => (s, levenshteinDistance (lowerStr (trimStr name)) s.name)) :=
          List.mem_map.mpr ⟨t, ht, rfl⟩
        have hts : (t, levenshteinDistance (lowerStr (trimStr name)) t.name) ∈ h0 :: rest := by
          rw [← hsg]
          exact (sortLe_perm (fun p q : Supplier × Nat => decide (p.2 ≤ q.2)) _).mem_iff.mpr htp
        rcases List.mem_cons.mp hts with heq | hmem
        · rw [← heq]
        · have := hpw.1 _ hmem
          simpa using this
      have hd1 : h0.2 = levenshteinDistance (lowerStr (trimStr name)) s1.name := by
        rw [← hfs1]
      have h03 : h0.2 ≤ 3 := le_trans (hminall s0 hs0) hd0
      refine ⟨s1, hs1, ?_, ?_, ?_⟩
      · simp only [findSupplier, hnone, hsg]
        rw [if_pos h03, ← hfs1]
      · rw [← hd1]
        exact h03
      · intro t ht
        rw [← hd1]
        exact hminall t ht
  · intro hnoexact hall
    have hnone : suppliers.find?
        (fun s => lowerStr s.name == lowerStr (trimStr name)) = none := by
      rw [List.find?_eq_none]
      intro s hs
      simpa using hnoexact s hs
    cases hsg : sortLe (fun p q => p.2 ≤ q.2)
        (suppliers.map (fun s => (s, levenshteinDistance (lowerStr (trimStr name)) s.name)))
      with
    | nil => simp only [findSupplier, hnone, hsg]
    | cons h0 rest =>
      have hmem0 : h0 ∈ suppliers.map
          (fun s => (s, levenshteinDistance (lowerStr (trimStr name)) s.name)) := by
        have := (sortLe_perm (fun p q : Supplier × Nat => decide (p.2 ≤ q.2))
          (suppliers.map (fun s => (s, levenshteinDistance (lowerStr (trimStr name)) s.name)))).mem_iff.mp
          (hsg ▸ List.mem_cons_self h0 rest)
        exact this
      obtain ⟨s1, hs1, hfs1⟩ := List.mem_map.mp hmem0
      have hgt : 3 < h0.2 := by
        rw [← hfs1]
        exact hall s1 hs1
      simp only [findSupplier, hnone, hsg]
      rw [if_neg (by omega)]

/-- Witness for C9: with one supplier named Deons, the entered name Deon is
not an exact match and has distance 1, so Deons is suggested. -/
theorem C9_witness :
    ∃ s ∈ ([⟨"s1", "Deons"⟩] : List Supplier),
      findSupplier "Deon" [⟨"s1", "Deons"⟩] = some (.suggestion s.name)
        ∧ levenshteinDistance (lowerStr (trimStr "Deon")) s.name ≤ 3
        ∧ ∀ t ∈ ([⟨"s1", "Deons"⟩] : List Supplier),
            levenshteinDistance (lowerStr (trimStr "Deon")) s.name
              ≤ levenshteinDistance (lowerStr (trimStr "Deon")) t.name :=
  (C9_fuzzy_supplier_match "Deon" [⟨"s1", "Deons"⟩]).2.2.1
    (by decide) (by decide)

end Intellectory
